import Mathlib

/-!
# Verification of the CODEOWNERS ruleset engine

Shallow embedding of `codeowners/util.go` (package `codeowners`):
`Ruleset.Equal`, `sameStringSlice`, `Ruleset.Compile` and `parseRulesFile`.

Modelling conventions.

* A Go `string` is modelled as the list of its Unicode code points
  (`GoString := List Char`), i.e. the text is taken to be well-formed UTF-8.
  All separators and sigils the code looks at (`"\n"`, `" "`, `'#'`, `'@'`) are
  ASCII, so splitting and indexing by byte and by code point agree on such text.
* A Go slice of rules may be `nil`; `Ruleset.nil` is the nil slice and
  `Ruleset.slice rs` a non-nil slice (possibly of length 0).
* `map[string]int` is an association list with at most one entry per key.
* `[]byte` output is modelled as a `GoString`.
-/

namespace Codeowners

/-- A Go string, as the sequence of its code points. -/
abbrev GoString := List Char

/-- Go `type Rule struct { Pattern string; Usernames []string }`. -/
structure Rule where
  Pattern : GoString
  Usernames : List GoString
deriving DecidableEq

/-- Go `type Ruleset []Rule`; a slice value is either `nil` or a (possibly empty) slice. -/
inductive Ruleset where
  | nil
  | slice (rules : List Rule)
deriving DecidableEq

/-- The elements a `range` loop over the slice visits. -/
def Ruleset.toList : Ruleset → List Rule
  | .nil => []
  | .slice rs => rs

/-- Go `len(ruleset)`. -/
def Ruleset.len (r : Ruleset) : Nat := r.toList.length

/-! ## `map[string]int` -/

/-- Go `map[string]int`. -/
def StrIntMap := List (GoString × Int)

/-- Go `make(map[string]int, n)`. -/
def StrIntMap.empty : StrIntMap := ([] : List (GoString × Int))

/-- Go `v, ok := m[k]`: `none` when the key is absent. -/
def StrIntMap.get? (m : StrIntMap) (k : GoString) : Option Int :=
  List.lookup k m

/-- Go `m[k]` as a value: the zero value when the key is absent. -/
def StrIntMap.get (m : StrIntMap) (k : GoString) : Int :=
  (m.get? k).getD 0

/-- Go `delete(m, k)`. -/
def StrIntMap.delete (m : StrIntMap) (k : GoString) : StrIntMap :=
  List.filter (fun e => e.1 != k) m

/-- Go `m[k] = v`. -/
def StrIntMap.set (m : StrIntMap) (k : GoString) (v : Int) : StrIntMap :=
  (k, v) :: m.delete k

/-- Go `len(m)`: the number of keys. -/
def StrIntMap.len (m : StrIntMap) : Nat := List.length m

/-! ## `sameStringSlice` -/

/-- First loop of `sameStringSlice`: `for _, _x := range x { diff[_x]++ }`. -/
def sameStringSlice.countUp (diff : StrIntMap) (x : List GoString) : StrIntMap :=
  x.foldl (fun d s => d.set s (d.get s + 1)) diff

/-- Second loop of `sameStringSlice`; `none` is the early `return false`. -/
def sameStringSlice.countDown : StrIntMap → List GoString → Option StrIntMap
  | diff, [] => some diff
  | diff, s :: ys =>
    match diff.get? s with
    | none => none
    | some v =>
      let diff1 := diff.set s (v - 1)
      let diff2 := if diff1.get s = 0 then diff1.delete s else diff1
      sameStringSlice.countDown diff2 ys

/-- Go `func sameStringSlice(x, y []string) bool`. -/
def sameStringSlice (x y : List GoString) : Bool :=
  if x.length ≠ y.length then false
  else
    match sameStringSlice.countDown (sameStringSlice.countUp StrIntMap.empty x) y with
    | none => false
    | some diff => if diff.len = 0 then true else false

/-! ## `Ruleset.Equal` -/

/-- Inner loop of `Equal`: scans the whole comparison slice (there is no `break`),
overwriting `found` at every rule whose pattern matches. -/
def Ruleset.Equal.scan (rule : Rule) (comparison : List Rule) (found : Bool) : Bool :=
  comparison.foldl
    (fun found comparisonRule =>
      if comparisonRule.Pattern = rule.Pattern then
        sameStringSlice rule.Usernames comparisonRule.Usernames
      else found)
    found

/-- Outer loop of `Equal`: returns `false` at the first rule that is not found. -/
def Ruleset.Equal.loop (comparison : List Rule) : List Rule → Bool
  | [] => true
  | rule :: rest =>
    let found := Ruleset.Equal.scan rule comparison false
    if !found then false else Ruleset.Equal.loop comparison rest

/-- Go `func (ruleset Ruleset) Equal(comparison Ruleset) bool`. -/
def Ruleset.Equal (ruleset comparison : Ruleset) : Bool :=
  if ruleset.len ≠ comparison.len then false
  else Ruleset.Equal.loop comparison.toList ruleset.toList

/-! ## `Ruleset.Compile` -/

/-- The string literal that `Compile` starts its output with. -/
def Ruleset.Compile.header : GoString :=
  "# automatically generated by terraform - please do not edit here\n".toList

/-- Inner loop of `Compile`: builds the `usernames` string of one rule.
`strings.Contains(username, "@")` is membership of the character `'@'`. -/
def Ruleset.Compile.usernames (names : List GoString) : GoString :=
  names.foldl
    (fun usernames username =>
      if ¬ ('@' ∈ username) then usernames ++ ['@'] ++ username ++ [' ']
      else usernames ++ username ++ [' '])
    []

/-- Go `func (ruleset Ruleset) Compile() []byte`. -/
def Ruleset.Compile : Ruleset → GoString
  | .nil => []
  | .slice rules =>
    rules.foldl
      (fun output rule =>
        output ++ rule.Pattern ++ [' '] ++ Ruleset.Compile.usernames rule.Usernames ++ ['\n'])
      Ruleset.Compile.header

/-! ## Go standard library functions used by `parseRulesFile` -/

/-- Go `strings.Split(s, sep)` for a separator `sep` of exactly one character
(the code only splits at `"\n"` and `" "`). `Split("", sep)` is `[""]`. -/
def stringsSplit (sep : Char) : GoString → List GoString
  | [] => [[]]
  | c :: cs =>
    if c = sep then [] :: stringsSplit sep cs
    else
      match stringsSplit sep cs with
      | [] => [[c]]
      | w :: ws => (c :: w) :: ws

/-- Go `unicode.IsSpace`: the code points with the Unicode White_Space property. -/
def unicodeIsSpace (c : Char) : Bool :=
  let n := c.toNat
  (9 ≤ n && n ≤ 13) || n = 32 || n = 133 || n = 160 || n = 5760 ||
    (8192 ≤ n && n ≤ 8202) || n = 8232 || n = 8233 || n = 8239 || n = 8287 || n = 12288

/-- Go `strings.TrimSpace`: removes all leading and trailing white space. -/
def stringsTrimSpace (s : GoString) : GoString :=
  ((s.dropWhile unicodeIsSpace).reverse.dropWhile unicodeIsSpace).reverse

/-! ## `parseRulesFile` -/

/-- Body of the loop over `words[1:]`: appends one owner to the rule under construction. -/
def parseRulesFile.addUsername (rule : Rule) (username : GoString) : Rule :=
  match username with
  | [] => rule
  | c :: rest =>
    let username1 := if c = '@' then rest else c :: rest
    { rule with Usernames := rule.Usernames ++ [username1] }

/-- Body of the loop over the lines: `none` is a `continue`, `some rule` the rule that
is appended to `rules`. -/
def parseRulesFile.line (line : GoString) : Option Rule :=
  let trimmed := stringsTrimSpace line
  match trimmed with
  | [] => none
  | c :: _ =>
    if c = '#' then none
    else
      let words := stringsSplit ' ' trimmed
      match words with
      | [] => none
      | [_] => none
      | w :: rest =>
        some (rest.foldl parseRulesFile.addUsername { Pattern := w, Usernames := [] })

/-- Go `func parseRulesFile(data string) Ruleset`. -/
def parseRulesFile (data : GoString) : Ruleset :=
  Ruleset.slice
    ((stringsSplit '\n' data).foldl
      (fun rules line =>
        match parseRulesFile.line line with
        | none => rules
        | some rule => rules ++ [rule])
      [])

/-! ## Auxiliary notions used in the statements and proofs -/

/-- The map `m` holds exactly the keys `k` with `f k ≠ 0`, each with value `f k`. -/
def StrIntMap.Rep (m : StrIntMap) (f : GoString → Nat) : Prop :=
  ∀ k, m.get? k = if f k = 0 then none else some (f k : Int)

/-- The rule of `comparison` that the scan of `Equal` ends up comparing with:
the last one whose pattern is `p`. -/
def lastMatch (p : GoString) (comparison : List Rule) : Option Rule :=
  comparison.reverse.find? (fun c => decide (c.Pattern = p))

/-! ## Reference descriptions of `Compile` and of parsing

These definitions follow the wording of the specification, not the code; the theorems
below compare them with the embedded functions. -/

/-- How an owner is written: unchanged if it contains `'@'`, with `'@'` put in front
otherwise. -/
def Spec.writeOwner (o : GoString) : GoString :=
  if '@' ∈ o then o else '@' :: o

/-- One output line: the pattern, one space, each owner followed by one space, `"\n"`. -/
def Spec.ruleLine (r : Rule) : GoString :=
  r.Pattern ++ [' '] ++ (r.Usernames.map (fun o => Spec.writeOwner o ++ [' '])).flatten ++ ['\n']

/-- The header line followed by one line per rule, in order. -/
def Spec.compiled (rules : List Rule) : GoString :=
  "# automatically generated by terraform - please do not edit here\n".toList ++
    (rules.map Spec.ruleLine).flatten

/-- A line is skipped when it is blank (no non-whitespace character) or its first
non-whitespace character is `'#'`. -/
def Spec.skipped (line : GoString) : Bool :=
  match line.find? (fun c => !unicodeIsSpace c) with
  | none => true
  | some c => decide (c = '#')

/-- An owner token with a leading `'@'` removed. -/
def Spec.stripAt (token : GoString) : GoString :=
  match token with
  | [] => []
  | c :: rest => if c = '@' then rest else c :: rest

/-- The whitespace-separated tokens of a line: the maximal runs of non-whitespace
characters (any whitespace character separates). -/
def Spec.whitespaceTokens (line : GoString) : List GoString :=
  (line.splitOnP unicodeIsSpace).filter (fun w => w ≠ [])

/-- The space-separated tokens of a line: the line without its leading and trailing
whitespace is cut at every space character U+0020 and the empty pieces are dropped. -/
def Spec.spaceTokens (line : GoString) : List GoString :=
  (((line.dropWhile unicodeIsSpace).rdropWhile unicodeIsSpace).splitOn ' ').filter
    (fun w => w ≠ [])

/-- The rule of a tokenised line: none with fewer than two tokens, otherwise the first
token is the pattern and the remaining tokens, with a leading `'@'` removed, the owners. -/
def Spec.ruleOfTokens : List GoString → Option Rule
  | p :: o :: os => some ⟨p, (o :: os).map Spec.stripAt⟩
  | _ => none

/-- The reference parse, for a given way of cutting a line into tokens. -/
def Spec.parseWith (tokens : GoString → List GoString) (text : GoString) : List Rule :=
  ((text.splitOn '\n').filter (fun l => !Spec.skipped l)).filterMap
    (fun l => Spec.ruleOfTokens (tokens l))

/-- A rule that `Compile` writes as a line which `parseRulesFile` reads back unchanged:
the pattern is non-empty, contains no whitespace and does not begin with `'#'`; there is
at least one owner; no owner contains whitespace or begins with `'@'`. -/
def Rule.WellFormed (r : Rule) : Prop :=
  r.Pattern ≠ [] ∧ (∀ c ∈ r.Pattern, unicodeIsSpace c = false) ∧
    r.Pattern.head? ≠ some '#' ∧ r.Usernames ≠ [] ∧
    ∀ o ∈ r.Usernames, (∀ c ∈ o, unicodeIsSpace c = false) ∧ o.head? ≠ some '@'

instance Rule.decidableWellFormed (r : Rule) : Decidable r.WellFormed := by
  unfold Rule.WellFormed
  infer_instance


/-- The first rule of `comparison` whose pattern is `p` (lowest index). -/
def firstMatch (p : GoString) (comparison : List Rule) : Option Rule :=
  comparison.find? (fun c => decide (c.Pattern = p))

/-- Two rules count as the same when their patterns are equal and their owner lists are
permutations of each other. -/
def Rule.Same (r c : Rule) : Prop :=
  r.Pattern = c.Pattern ∧ r.Usernames.Perm c.Usernames

/-- Equality as multisets of rules, up to `Rule.Same`: some rearrangement of `b` agrees
with `a` position by position. -/
def SameRuleMultiset (a b : List Rule) : Prop :=
  ∃ b', b'.Perm b ∧ List.Forall₂ Rule.Same a b'

/-! ## `parseRulesFile` with its run-time bounds checks

The same function again, with every index and slice expression of the source checked
the way the Go run time checks it: `none` stands for a run-time panic. -/

/-- Go index expression `s[i]`; `none` is the panic "index out of range". -/
def goIndex {α : Type} (s : List α) (i : Nat) : Option α :=
  if i < s.length then s.get? i else none

/-- Go slice expression `s[i:]`; `none` is the panic "slice bounds out of range". -/
def goSliceFrom {α : Type} (s : List α) (i : Nat) : Option (List α) :=
  if i ≤ s.length then some (s.drop i) else none

/-- Body of the loop over `words[1:]`, with `username[0]` and `username[1:]` checked. -/
def parseRulesFile.addUsernameChecked (rule : Rule) (username : GoString) : Option Rule :=
  if username.length = 0 then some rule
  else
    match goIndex username 0 with
    | none => none
    | some c =>
      if c = '@' then
        match goSliceFrom username 1 with
        | none => none
        | some username1 => some { rule with Usernames := rule.Usernames ++ [username1] }
      else some { rule with Usernames := rule.Usernames ++ [username] }

/-- The loop over `words[1:]`; a panic in the body ends the loop. -/
def parseRulesFile.usernamesChecked : Rule → List GoString → Option Rule
  | rule, [] => some rule
  | rule, username :: rest =>
    match parseRulesFile.addUsernameChecked rule username with
    | none => none
    | some rule1 => parseRulesFile.usernamesChecked rule1 rest

/-- Body of the loop over the lines, with `trimmed[0]`, `words[0]` and `words[1:]`
checked. The outer `none` is a panic, `some none` a `continue`. -/
def parseRulesFile.lineChecked (line : GoString) : Option (Option Rule) :=
  let trimmed := stringsTrimSpace line
  if trimmed.length = 0 then some none
  else
    match goIndex trimmed 0 with
    | none => none
    | some c =>
      if c = '#' then some none
      else
        let words := stringsSplit ' ' trimmed
        if words.length < 2 then some none
        else
          match goIndex words 0, goSliceFrom words 1 with
          | some w, some rest =>
            match parseRulesFile.usernamesChecked { Pattern := w, Usernames := [] } rest with
            | none => none
            | some rule => some (some rule)
          | _, _ => none

/-- The loop over the lines; a panic in the body ends the loop. -/
def parseRulesFile.linesChecked : List Rule → List GoString → Option (List Rule)
  | rules, [] => some rules
  | rules, line :: rest =>
    match parseRulesFile.lineChecked line with
    | none => none
    | some none => parseRulesFile.linesChecked rules rest
    | some (some rule) => parseRulesFile.linesChecked (rules ++ [rule]) rest

/-- Go `func parseRulesFile(data string) Ruleset` with its bounds checks; `none` is a
panic. -/
def parseRulesFileChecked (data : GoString) : Option Ruleset :=
  match parseRulesFile.linesChecked [] (stringsSplit '\n' data) with
  | none => none
  | some rules => some (Ruleset.slice rules)

/-! ## `createCommit`

The remote repository, the clock and the signer are the environment of `createCommit`:
a `World` gives the outcome of every call, as a function of the state of the remote
repository. A run of `createCommit` is described by the calls it made, in order and with
their results, by what it returned, and by the final state of the remote repository.
Pointer-typed fields of the `go-github` structures are `Option`s; dereferencing a nil
pointer is a run-time panic. -/

/-- Go `fmt` operand. -/
inductive FmtArg where
  | str (s : GoString)
  | int (n : Int)

/-- Go `%d` of an integer: decimal digits, with a leading `'-'` for a negative number. -/
def fmtInt : Int → GoString
  | Int.ofNat m => Nat.toDigits 10 m
  | Int.negSucc m => '-' :: Nat.toDigits 10 (m + 1)

/-- Go `fmt.Sprintf` for the verbs `%s` (string operand) and `%d` (integer operand), the
only ones the code uses; every other character of the format is copied. -/
def fmtSprintf : GoString → List FmtArg → GoString
  | [], _ => []
  | [c], _ => [c]
  | c :: d :: rest, args =>
    if c = '%' ∧ d = 's' then
      match args with
      | FmtArg.str s :: args1 => s ++ fmtSprintf rest args1
      | _ => c :: fmtSprintf (d :: rest) args
    else if c = '%' ∧ d = 'd' then
      match args with
      | FmtArg.int n :: args1 => fmtInt n ++ fmtSprintf rest args1
      | _ => c :: fmtSprintf (d :: rest) args
    else c :: fmtSprintf (d :: rest) args

/-- `github.TreeEntry`, of which path and content are kept. -/
structure TreeEntry where
  Path : GoString
  Content : GoString
deriving DecidableEq

/-- Go `type signedCommitOptions struct`. -/
structure signedCommitOptions where
  repoOwner : GoString
  repoName : GoString
  commitMessage : GoString
  gpgPassphrase : GoString
  gpgPrivateKey : GoString
  changes : List TreeEntry
  branch : GoString
  username : GoString
  email : GoString

/-- `github.Reference`: `Ref` and `Object.SHA`. -/
structure Reference where
  Ref : Option GoString
  ObjectSHA : Option GoString
deriving DecidableEq

/-- `github.Tree`, of which the code reads the SHA. -/
structure Tree where
  SHA : Option GoString
deriving DecidableEq

/-- `(*github.Tree).GetSHA`: the SHA, or `""` when the field is nil. -/
def Tree.GetSHA (t : Tree) : GoString := t.SHA.getD []

/-- `github.CommitAuthor`; `Date` is kept as Unix seconds. -/
structure CommitAuthor where
  Date : Option Int
  Name : Option GoString
  Email : Option GoString
deriving DecidableEq

/-- `(*github.CommitAuthor).GetName`. -/
def CommitAuthor.GetName (a : CommitAuthor) : GoString := a.Name.getD []

/-- `(*github.CommitAuthor).GetEmail`. -/
def CommitAuthor.GetEmail (a : CommitAuthor) : GoString := a.Email.getD []

/-- `github.SignatureVerification`, of which the code sets the signature. -/
structure SignatureVerification where
  Signature : Option GoString
deriving DecidableEq

/-- The `github.Commit` nested in a fetched `github.RepositoryCommit`; the code writes
its SHA and passes the object on as the parent. -/
structure ParentCommit where
  SHA : Option GoString
deriving DecidableEq

/-- `github.RepositoryCommit`: its own SHA and the nested commit. -/
structure RepositoryCommit where
  SHA : Option GoString
  Commit : Option ParentCommit
deriving DecidableEq

/-- `(*github.RepositoryCommit).GetSHA`. -/
def RepositoryCommit.GetSHA (c : RepositoryCommit) : GoString := c.SHA.getD []

/-- The `github.Commit` that `createCommit` builds and that `CreateCommit` returns. -/
structure Commit where
  SHA : Option GoString
  Author : Option CommitAuthor
  Message : Option GoString
  Tree : Option Tree
  Parents : List ParentCommit
  Verification : Option SignatureVerification
deriving DecidableEq

/-- The environment of `createCommit`: the five remote operations of the `go-github`
client (each returns its result and the next state of the remote repository), the
reading of `time.Now()` in Unix seconds, and `signData`, whose result depends on the
OpenPGP library. -/
structure World (σ Err : Type) where
  GetRef : σ → GoString → GoString → GoString → Except Err Reference × σ
  CreateTree : σ → GoString → GoString → GoString → List TreeEntry → Except Err Tree × σ
  GetCommit : σ → GoString → GoString → GoString → Except Err RepositoryCommit × σ
  Now : Int
  signData : GoString → GoString → GoString → Except Err GoString
  CreateCommit : σ → GoString → GoString → Commit → Except Err Commit × σ
  UpdateRef : σ → GoString → GoString → Reference → Bool → Option Err × σ

/-- The steps of the protocol. -/
inductive Step where
  | GetRef
  | CreateTree
  | GetCommit
  | signData
  | CreateCommit
  | UpdateRef
deriving DecidableEq

/-- One call made by `createCommit`, with its arguments and its result. -/
inductive Call (Err : Type) where
  | GetRef (owner repo ref : GoString) (res : Except Err Reference)
  | CreateTree (owner repo baseTree : GoString) (entries : List TreeEntry)
      (res : Except Err Tree)
  | GetCommit (owner repo sha : GoString) (res : Except Err RepositoryCommit)
  | signData (data privateKey passphrase : GoString) (res : Except Err GoString)
  | CreateCommit (owner repo : GoString) (commit : Commit) (res : Except Err Commit)
  | UpdateRef (owner repo : GoString) (ref : Reference) (force : Bool) (res : Option Err)

/-- What a run of `createCommit` ends with: `return nil`, `return err`, or a panic. -/
inductive Returned (Err : Type) where
  | nil
  | err (e : Err)
  | panicked
deriving DecidableEq

/-- A run of `createCommit`. -/
structure Run (σ Err : Type) where
  calls : List (Call Err)
  returned : Returned Err
  state : σ

/-- The error of a result, if it is one. -/
def errorOf {Err α : Type} : Except Err α → Option Err
  | Except.error e => some e
  | Except.ok _ => none

/-- The step a call belongs to. -/
def Call.step {Err : Type} : Call Err → Step
  | Call.GetRef .. => Step.GetRef
  | Call.CreateTree .. => Step.CreateTree
  | Call.GetCommit .. => Step.GetCommit
  | Call.signData .. => Step.signData
  | Call.CreateCommit .. => Step.CreateCommit
  | Call.UpdateRef .. => Step.UpdateRef

/-- The error a call failed with; `none` when it succeeded. -/
def Call.failure {Err : Type} : Call Err → Option Err
  | Call.GetRef _ _ _ res => errorOf res
  | Call.CreateTree _ _ _ _ res => errorOf res
  | Call.GetCommit _ _ _ res => errorOf res
  | Call.signData _ _ _ res => errorOf res
  | Call.CreateCommit _ _ _ res => errorOf res
  | Call.UpdateRef _ _ _ _ res => res

/-- The payload of a `signData` call. -/
def Call.signedData {Err : Type} : Call Err → Option GoString
  | Call.signData data _ _ _ => some data
  | _ => none

/-- The tree a successful `CreateTree` call returned. -/
def Call.createdTree {Err : Type} : Call Err → Option Tree
  | Call.CreateTree _ _ _ _ (Except.ok tree) => some tree
  | _ => none

/-- The commit a successful `GetCommit` call returned. -/
def Call.fetchedCommit {Err : Type} : Call Err → Option RepositoryCommit
  | Call.GetCommit _ _ _ (Except.ok parent) => some parent
  | _ => none

/-- The `force` argument of an `UpdateRef` call. -/
def Call.forced {Err : Type} : Call Err → Option Bool
  | Call.UpdateRef _ _ _ force _ => some force
  | _ => none

/-- The call returned a result on which the code that follows dereferences a nil pointer:
a reference without object SHA from `GetRef` (the code evaluates `*ref.Object.SHA`), or
a commit without nested commit from `GetCommit` (the code assigns `parent.Commit.SHA`). -/
def Call.derefsNil {Err : Type} : Call Err → Bool
  | Call.GetRef _ _ _ (Except.ok ref) => ref.ObjectSHA.isNone
  | Call.GetCommit _ _ _ (Except.ok parent) => parent.Commit.isNone
  | _ => false

/-- The payload built by the `fmt.Sprintf` call of `createCommit`. -/
def createCommit.payload (tree : Tree) (parent : RepositoryCommit) (author : CommitAuthor)
    (date : Int) (options : signedCommitOptions) : GoString :=
  fmtSprintf
    "tree %s\nparent %s\nauthor %s <%s> %d +0000\ncommitter %s <%s> %d +0000\n\n%s".toList
    [FmtArg.str tree.GetSHA, FmtArg.str parent.GetSHA,
      FmtArg.str author.GetName, FmtArg.str author.GetEmail, FmtArg.int date,
      FmtArg.str author.GetName, FmtArg.str author.GetEmail, FmtArg.int date,
      FmtArg.str options.commitMessage]

/-- The end of `createCommit`: build the commit, `CreateCommit`, then `UpdateRef`.
`calls` are the calls made so far. -/
def createCommit.finish {σ Err : Type} (w : World σ Err) (options : signedCommitOptions)
    (ref : Reference) (tree : Tree) (parentCommit : ParentCommit) (author : CommitAuthor)
    (verification : Option SignatureVerification) (calls : List (Call Err)) (s : σ) :
    Run σ Err :=
  let commit : Commit :=
    { SHA := none, Author := some author, Message := some options.commitMessage,
      Tree := some tree, Parents := [parentCommit], Verification := verification }
  match w.CreateCommit s options.repoOwner options.repoName commit with
  | (Except.error err, s1) =>
    { calls := calls ++
        [Call.CreateCommit options.repoOwner options.repoName commit (Except.error err)],
      returned := Returned.err err, state := s1 }
  | (Except.ok newCommit, s1) =>
    let ref1 : Reference := { ref with ObjectSHA := newCommit.SHA }
    match w.UpdateRef s1 options.repoOwner options.repoName ref1 false with
    | (err, s2) =>
      { calls := calls ++
          [Call.CreateCommit options.repoOwner options.repoName commit (Except.ok newCommit),
            Call.UpdateRef options.repoOwner options.repoName ref1 false err],
        returned := (match err with
          | none => Returned.nil
          | some e => Returned.err e),
        state := s2 }

/-- Go `func createCommit(client *github.Client, options *signedCommitOptions) error`. -/
def createCommit {σ Err : Type} (w : World σ Err) (options : signedCommitOptions) (s0 : σ) :
    Run σ Err :=
  let refName := "refs/heads/".toList ++ options.branch
  match w.GetRef s0 options.repoOwner options.repoName refName with
  | (Except.error err, s1) =>
    { calls := [Call.GetRef options.repoOwner options.repoName refName (Except.error err)],
      returned := Returned.err err, state := s1 }
  | (Except.ok ref, s1) =>
    let c1 : Call Err := Call.GetRef options.repoOwner options.repoName refName (Except.ok ref)
    match ref.ObjectSHA with
    | none => { calls := [c1], returned := Returned.panicked, state := s1 }
    | some sha =>
      match w.CreateTree s1 options.repoOwner options.repoName sha options.changes with
      | (Except.error err, s2) =>
        { calls := [c1, Call.CreateTree options.repoOwner options.repoName sha
            options.changes (Except.error err)],
          returned := Returned.err err, state := s2 }
      | (Except.ok tree, s2) =>
        let c2 : Call Err := Call.CreateTree options.repoOwner options.repoName sha
          options.changes (Except.ok tree)
        match w.GetCommit s2 options.repoOwner options.repoName sha with
        | (Except.error err, s3) =>
          { calls := [c1, c2, Call.GetCommit options.repoOwner options.repoName sha
              (Except.error err)],
            returned := Returned.err err, state := s3 }
        | (Except.ok parent, s3) =>
          let c3 : Call Err := Call.GetCommit options.repoOwner options.repoName sha
            (Except.ok parent)
          match parent.Commit with
          | none => { calls := [c1, c2, c3], returned := Returned.panicked, state := s3 }
          | some nested =>
            let parentCommit : ParentCommit := { nested with SHA := some parent.GetSHA }
            let date := w.Now
            let author : CommitAuthor :=
              { Date := some date, Name := some options.username,
                Email := some options.email }
            if options.gpgPrivateKey ≠ [] then
              let payload := createCommit.payload tree parent author date options
              match w.signData payload options.gpgPrivateKey options.gpgPassphrase with
              | Except.error err =>
                { calls := [c1, c2, c3, Call.signData payload options.gpgPrivateKey
                    options.gpgPassphrase (Except.error err)],
                  returned := Returned.err err, state := s3 }
              | Except.ok signature =>
                createCommit.finish w options ref tree parentCommit author
                  (some { Signature := some signature })
                  [c1, c2, c3, Call.signData payload options.gpgPrivateKey
                    options.gpgPassphrase (Except.ok signature)] s3
            else
              createCommit.finish w options ref tree parentCommit author none [c1, c2, c3] s3

/-- The steps `createCommit` goes through when none fails: `signData` only when a key is
supplied. -/
def createCommit.steps (options : signedCommitOptions) : List Step :=
  [Step.GetRef, Step.CreateTree, Step.GetCommit] ++
    (if options.gpgPrivateKey ≠ [] then [Step.signData] else []) ++
    [Step.CreateCommit, Step.UpdateRef]

/-- A sample environment over a remote repository without state, with errors numbered:
every step succeeds except the one named by `failAt`, which fails with error `7`. -/
def sampleWorld (failAt : Option Step) : World Unit Nat where
  GetRef := fun s _ _ ref =>
    (if failAt = some Step.GetRef then Except.error 7
      else Except.ok { Ref := some ref, ObjectSHA := some "R".toList }, s)
  CreateTree := fun s _ _ _ _ =>
    (if failAt = some Step.CreateTree then Except.error 7
      else Except.ok { SHA := some "T".toList }, s)
  GetCommit := fun s _ _ _ =>
    (if failAt = some Step.GetCommit then Except.error 7
      else Except.ok { SHA := some "P".toList, Commit := some { SHA := none } }, s)
  Now := 1700000000
  signData := fun _ _ _ =>
    if failAt = some Step.signData then Except.error 7 else Except.ok "SIG".toList
  CreateCommit := fun s _ _ commit =>
    (if failAt = some Step.CreateCommit then Except.error 7
      else Except.ok { commit with SHA := some "N".toList }, s)
  UpdateRef := fun s _ _ _ _ =>
    (if failAt = some Step.UpdateRef then some 7 else none, s)

/-- Sample options: Jane Doe commits "update owners" to `main`, signing with `key`. -/
def sampleOptions (key : GoString) : signedCommitOptions :=
  { repoOwner := "o".toList, repoName := "r".toList, commitMessage := "update owners".toList,
    gpgPassphrase := [], gpgPrivateKey := key, changes := [], branch := "main".toList,
    username := "Jane Doe".toList, email := "jane@example.com".toList }


/-! ## The counting map represents a multiset -/

theorem StrIntMap.get?_delete (m : StrIntMap) (k k' : GoString) :
    (m.delete k).get? k' = if k' = k then none else m.get? k' := by
  unfold StrIntMap.delete StrIntMap.get?
  induction m with
  | nil => simp
  | cons e m ih =>
    obtain ⟨a, b⟩ := e
    by_cases hak : a = k
    · subst hak
      by_cases hk : k' = a
      · simp [List.filter_cons, hk] at ih ⊢
        exact ih
      · have hne : (k' == a) = false := by simpa using hk
        simp [List.filter_cons, List.lookup_cons, hne, hk] at ih ⊢
        exact ih
    · by_cases hk : k' = k
      · subst hk
        have hne : (k' == a) = false := by simpa using fun h => hak h.symm
        simp [List.filter_cons, hak, List.lookup_cons, hne] at ih ⊢
        exact ih
      · by_cases hka : k' = a
        · subst hka
          simp [List.filter_cons, hak, List.lookup_cons]
        · have hne : (k' == a) = false := by simpa using hka
          simp [List.filter_cons, hak, List.lookup_cons, hne, hk] at ih ⊢
          exact ih

theorem StrIntMap.get?_set (m : StrIntMap) (k k' : GoString) (v : Int) :
    (m.set k v).get? k' = if k' = k then some v else m.get? k' := by
  by_cases hk : k' = k
  · subst hk
    simp [StrIntMap.set, StrIntMap.get?, List.lookup_cons]
  · have hne : (k' == k) = false := by simpa using hk
    have h := StrIntMap.get?_delete m k k'
    simp only [StrIntMap.get?] at h
    simp [StrIntMap.set, StrIntMap.get?, List.lookup_cons, hne, hk, h]

theorem StrIntMap.len_eq_zero_iff (m : StrIntMap) :
    m.len = 0 ↔ ∀ k, m.get? k = none := by
  unfold StrIntMap.len StrIntMap.get?
  cases m with
  | nil => simp
  | cons e m =>
    obtain ⟨a, b⟩ := e
    simp only [List.length_cons, Nat.succ_ne_zero, false_iff, not_forall]
    exact ⟨a, by simp [List.lookup_cons]⟩

theorem StrIntMap.Rep.get {m : StrIntMap} {f : GoString → Nat} (h : m.Rep f) (k : GoString) :
    m.get k = (f k : Int) := by
  unfold StrIntMap.get
  rw [h k]
  by_cases hf : f k = 0 <;> simp [hf]

theorem StrIntMap.rep_empty : StrIntMap.empty.Rep (fun _ => 0) := by
  intro k
  simp [StrIntMap.empty, StrIntMap.get?]

theorem sameStringSlice.countUp_rep (x : List GoString) :
    ∀ (m : StrIntMap) (f : GoString → Nat), m.Rep f →
      (sameStringSlice.countUp m x).Rep (fun k => f k + x.count k) := by
  induction x with
  | nil => intro m f h; simpa [sameStringSlice.countUp] using h
  | cons s xs ih =>
    intro m f h
    have hstep : (m.set s (m.get s + 1)).Rep (fun k => if k = s then f s + 1 else f k) := by
      intro k
      rw [StrIntMap.get?_set, h.get s]
      by_cases hk : k = s
      · simp [hk]
      · simp [hk, h k]
    have h2 := ih _ _ hstep
    intro k
    have h3 := h2 k
    simp only [sameStringSlice.countUp, List.foldl_cons] at h3 ⊢
    rw [h3]
    by_cases hk : k = s
    · subst hk
      simp [List.count_cons]
      omega
    · have hne : (s == k) = false := by simpa using fun h => hk h.symm
      simp [hk, List.count_cons, hne]

theorem sameStringSlice.countDown_spec (y : List GoString) :
    ∀ (m : StrIntMap) (f : GoString → Nat), m.Rep f →
      match sameStringSlice.countDown m y with
      | none => ∃ k, f k < y.count k
      | some m' => (∀ k, y.count k ≤ f k) ∧ m'.Rep (fun k => f k - y.count k) := by
  induction y with
  | nil => intro m f h; simpa [sameStringSlice.countDown] using h
  | cons s ys ih =>
    intro m f h
    by_cases hfs : f s = 0
    · have hget : m.get? s = none := by rw [h s]; simp [hfs]
      simp only [sameStringSlice.countDown, hget]
      exact ⟨s, by simp [hfs]⟩
    · have hget : m.get? s = some (f s : Int) := by rw [h s]; simp [hfs]
      have hstep1 : (m.set s ((f s : Int) - 1)).get s = ((f s - 1 : Nat) : Int) := by
        unfold StrIntMap.get
        rw [StrIntMap.get?_set]
        simp
        omega
      have hstep : (if (m.set s ((f s : Int) - 1)).get s = 0
          then (m.set s ((f s : Int) - 1)).delete s else m.set s ((f s : Int) - 1)).Rep
          (fun k => if k = s then f s - 1 else f k) := by
        intro k
        by_cases h1 : f s - 1 = 0
        · have : (m.set s ((f s : Int) - 1)).get s = 0 := by rw [hstep1, h1]; rfl
          rw [if_pos this, StrIntMap.get?_delete, StrIntMap.get?_set]
          by_cases hk : k = s
          · simp [hk, h1]
          · simp [hk, h k]
        · have : ¬ (m.set s ((f s : Int) - 1)).get s = 0 := by rw [hstep1]; omega
          rw [if_neg this, StrIntMap.get?_set]
          by_cases hk : k = s
          · simp [hk, h1]
            omega
          · simp [hk, h k]
      have h2 := ih _ _ hstep
      simp only [sameStringSlice.countDown, hget]
      revert h2
      cases sameStringSlice.countDown (if (m.set s ((f s : Int) - 1)).get s = 0
          then (m.set s ((f s : Int) - 1)).delete s else m.set s ((f s : Int) - 1)) ys with
      | none =>
        rintro ⟨k, hk⟩
        refine ⟨k, ?_⟩
        by_cases hks : k = s
        · subst hks
          simp [List.count_cons] at hk ⊢
          omega
        · have hne : (s == k) = false := by simpa using fun h => hks h.symm
          simpa [hks, List.count_cons, hne] using hk
      | some m' =>
        rintro ⟨hle, hrep⟩
        refine ⟨fun k => ?_, fun k => ?_⟩
        · have := hle k
          by_cases hks : k = s
          · subst hks
            simp [List.count_cons] at this ⊢
            omega
          · have hne : (s == k) = false := by simpa using fun h => hks h.symm
            simpa [hks, List.count_cons, hne] using this
        · have := hrep k
          rw [this]
          by_cases hks : k = s
          · subst hks
            simp [List.count_cons]
            have e : f k - 1 - List.count k ys = f k - (List.count k ys + 1) := by omega
            rw [e]
          · have hne : (s == k) = false := by simpa using fun h => hks h.symm
            simp [hks, List.count_cons, hne]

theorem perm_iff_count_eq (x y : List GoString) :
    x.Perm y ↔ ∀ k, x.count k = y.count k := by
  have key : ∀ (l : List GoString) (k : GoString),
      l.count k = @List.count GoString instBEqOfDecidableEq k l := by
    intro l k
    induction l with
    | nil => rfl
    | cons a l ih =>
      rw [List.count_cons, @List.count_cons GoString instBEqOfDecidableEq, ih]
      by_cases h : a = k <;> simp [h]
  rw [List.perm_iff_count]
  simp only [key]

/-- Helper: `sameStringSlice` decides whether its arguments are permutations of each other. -/
theorem sameStringSlice_iff_perm (x y : List GoString) :
    sameStringSlice x y = true ↔ x.Perm y := by
  have hup := sameStringSlice.countUp_rep x _ _ StrIntMap.rep_empty
  have hdown := sameStringSlice.countDown_spec y _ _ hup
  rw [perm_iff_count_eq]
  unfold sameStringSlice
  by_cases hlen : x.length = y.length
  · simp only [hlen, ne_eq, not_true_eq_false, if_false]
    revert hdown
    cases sameStringSlice.countDown (sameStringSlice.countUp StrIntMap.empty x) y with
    | none =>
      rintro ⟨k, hk⟩
      simp only [Bool.false_eq_true, false_iff, not_forall]
      exact ⟨k, by simp at hk; omega⟩
    | some m' =>
      rintro ⟨hle, hrep⟩
      simp only [ite_eq_left_iff, Bool.false_eq_true, imp_false, not_not]
      rw [StrIntMap.len_eq_zero_iff]
      constructor
      · intro h k
        have h1 := h k
        rw [hrep k] at h1
        have h2 := hle k
        simp at h1 h2
        by_cases h0 : List.count k x - List.count k y = 0
        · omega
        · simp [h0] at h1
      · intro h k
        rw [hrep k]
        simp [h k]
  · simp only [ne_eq, hlen, not_false_eq_true, if_true, Bool.false_eq_true, false_iff]
    intro h
    exact hlen (((perm_iff_count_eq x y).mpr h).length_eq)

/-! ## What `Equal` computes -/

theorem Ruleset.Equal.scan_eq (rule : Rule) (comparison : List Rule) (found : Bool) :
    Ruleset.Equal.scan rule comparison found =
      match lastMatch rule.Pattern comparison with
      | none => found
      | some c => sameStringSlice rule.Usernames c.Usernames := by
  induction comparison using List.reverseRecOn with
  | nil => simp [Ruleset.Equal.scan, lastMatch]
  | append_singleton cs c ih =>
    unfold Ruleset.Equal.scan lastMatch at ih ⊢
    rw [List.foldl_append, List.reverse_append]
    by_cases hc : c.Pattern = rule.Pattern
    · simp [List.find?_cons, hc]
    · simp only [List.foldl_cons, List.foldl_nil, hc, if_false, List.reverse_cons,
        List.reverse_nil, List.nil_append, List.singleton_append, List.find?_cons,
        decide_False]
      exact ih

theorem Ruleset.Equal.scan_iff (rule : Rule) (comparison : List Rule) :
    Ruleset.Equal.scan rule comparison false = true ↔
      ∃ c, lastMatch rule.Pattern comparison = some c ∧ rule.Usernames.Perm c.Usernames := by
  rw [Ruleset.Equal.scan_eq]
  cases h : lastMatch rule.Pattern comparison with
  | none => simp
  | some c => simp [sameStringSlice_iff_perm]

theorem Ruleset.Equal.loop_iff (comparison rules : List Rule) :
    Ruleset.Equal.loop comparison rules = true ↔
      ∀ rule ∈ rules, Ruleset.Equal.scan rule comparison false = true := by
  induction rules with
  | nil => simp [Ruleset.Equal.loop]
  | cons r rs ih =>
    simp only [Ruleset.Equal.loop, List.mem_cons, forall_eq_or_imp]
    cases hs : Ruleset.Equal.scan r comparison false with
    | false => simp
    | true => simpa using ih

/-- Helper: `Equal` holds exactly when the lengths agree and every rule of the receiver
has the same owners, up to order, as the last rule of the argument with its pattern. -/
theorem Ruleset.Equal_iff (a b : Ruleset) :
    Ruleset.Equal a b = true ↔
      a.toList.length = b.toList.length ∧
      ∀ rule ∈ a.toList, ∃ c, lastMatch rule.Pattern b.toList = some c ∧
        rule.Usernames.Perm c.Usernames := by
  unfold Ruleset.Equal Ruleset.len
  by_cases hlen : a.toList.length = b.toList.length
  · simp only [hlen, ne_eq, not_true_eq_false, if_false, true_and]
    rw [Ruleset.Equal.loop_iff]
    exact forall₂_congr fun rule _ => Ruleset.Equal.scan_iff rule b.toList
  · simp [hlen]

theorem lastMatch_some {p : GoString} {cs : List Rule} {c : Rule}
    (h : lastMatch p cs = some c) : c ∈ cs ∧ c.Pattern = p := by
  unfold lastMatch at h
  have h1 := List.mem_of_find?_eq_some h
  have h2 := List.find?_some h
  exact ⟨by simpa using h1, by simpa using h2⟩

theorem lastMatch_isSome_of_mem {cs : List Rule} {c : Rule} (h : c ∈ cs) :
    ∃ d, lastMatch c.Pattern cs = some d := by
  unfold lastMatch
  cases hf : cs.reverse.find? (fun d => decide (d.Pattern = c.Pattern)) with
  | some d => exact ⟨d, rfl⟩
  | none =>
    rw [List.find?_eq_none] at hf
    have := hf c (by simpa using h)
    simp at this

/-- With pairwise distinct patterns, the last match is the only match. -/
theorem lastMatch_eq_some_iff_of_nodup {cs : List Rule}
    (hnd : (cs.map Rule.Pattern).Nodup) (p : GoString) (c : Rule) :
    lastMatch p cs = some c ↔ c ∈ cs ∧ c.Pattern = p := by
  constructor
  · exact lastMatch_some
  · rintro ⟨hmem, hp⟩
    subst hp
    obtain ⟨d, hd⟩ := lastMatch_isSome_of_mem hmem
    obtain ⟨hdmem, hdp⟩ := lastMatch_some hd
    have : d = c := List.inj_on_of_nodup_map hnd hdmem hmem hdp
    rw [hd, this]

/-! ## Claims about `Equal` and `sameStringSlice` -/

/-- C2 (as stated, refuted): a ruleset in which the pattern `p` occurs twice, with
different owners, is not `Equal` to itself. -/
theorem equal_not_reflexive_on_duplicate_pattern :
    Ruleset.Equal
      (.slice [⟨"p".toList, ["a".toList]⟩, ⟨"p".toList, ["b".toList]⟩])
      (.slice [⟨"p".toList, ["a".toList]⟩, ⟨"p".toList, ["b".toList]⟩]) = false := by
  decide

/-- C2 (amended): `r.Equal(r)` is true exactly when any two rules of `r` with the same
pattern have owner lists that are permutations of each other; in particular it is true
for every ruleset without a repeated pattern. -/
theorem equal_self_iff (r : Ruleset) :
    Ruleset.Equal r r = true ↔
      ∀ x ∈ r.toList, ∀ y ∈ r.toList, x.Pattern = y.Pattern →
        x.Usernames.Perm y.Usernames := by
  rw [Ruleset.Equal_iff]
  constructor
  · rintro ⟨-, h⟩ x hx y hy hxy
    obtain ⟨c, hc, hpc⟩ := h x hx
    obtain ⟨d, hd, hpd⟩ := h y hy
    rw [← hxy, hc] at hd
    cases hd
    exact hpc.trans hpd.symm
  · intro h
    refine ⟨rfl, fun x hx => ?_⟩
    obtain ⟨d, hd⟩ := lastMatch_isSome_of_mem hx
    obtain ⟨hdmem, hdp⟩ := lastMatch_some hd
    exact ⟨d, hd, h x hx d hdmem hdp.symm⟩

/-- C3: owner lists are compared as multisets. For one-rule rulesets with the same
pattern, `Equal` is true iff the owner lists are permutations of each other, and
`sameStringSlice x y` is true iff `x` and `y` are permutations of each other;
`[a,b]` against `[b,a]` gives true and `[a,a]` against `[a]` gives false. -/
theorem sameStringSlice_compares_multisets (p : GoString) (x y : List GoString) :
    (Ruleset.Equal (.slice [⟨p, x⟩]) (.slice [⟨p, y⟩]) = true ↔ y.Perm x) ∧
    (sameStringSlice x y = true ↔ x.Perm y) ∧
    Ruleset.Equal (.slice [⟨p, ["a".toList, "b".toList]⟩])
      (.slice [⟨p, ["b".toList, "a".toList]⟩]) = true ∧
    Ruleset.Equal (.slice [⟨p, ["a".toList, "a".toList]⟩])
      (.slice [⟨p, ["a".toList]⟩]) = false := by
  have one : ∀ u v : List GoString,
      Ruleset.Equal (.slice [⟨p, u⟩]) (.slice [⟨p, v⟩]) = sameStringSlice u v := by
    intro u v
    simp [Ruleset.Equal, Ruleset.len, Ruleset.toList, Ruleset.Equal.loop, Ruleset.Equal.scan]
  refine ⟨?_, sameStringSlice_iff_perm x y, ?_, ?_⟩
  · rw [one, sameStringSlice_iff_perm]
    exact ⟨List.Perm.symm, List.Perm.symm⟩
  · rw [one]; decide
  · rw [one]; decide

/-- C4 (as stated, refuted): permuting the rules of the comparison ruleset changes the
result when a pattern occurs twice in it. -/
theorem equal_depends_on_order_of_duplicates :
    List.Perm [(⟨"p".toList, ["x".toList]⟩ : Rule), ⟨"p".toList, ["y".toList]⟩]
      [⟨"p".toList, ["y".toList]⟩, ⟨"p".toList, ["x".toList]⟩] ∧
    Ruleset.Equal (.slice [⟨"p".toList, ["x".toList]⟩, ⟨"p".toList, ["x".toList]⟩])
      (.slice [⟨"p".toList, ["y".toList]⟩, ⟨"p".toList, ["x".toList]⟩]) = true ∧
    Ruleset.Equal (.slice [⟨"p".toList, ["x".toList]⟩, ⟨"p".toList, ["x".toList]⟩])
      (.slice [⟨"p".toList, ["x".toList]⟩, ⟨"p".toList, ["y".toList]⟩]) = false := by
  refine ⟨List.Perm.swap _ _ _, ?_, ?_⟩ <;> decide

/-- C4 (amended): the order of the rules of the receiver never matters, and the order
of the rules of the comparison ruleset does not matter when no pattern occurs in more
than one of its rules: then `Equal(a', b') = Equal(a, b)` for all permutations `a'` of
`a` and `b'` of `b`. -/
theorem equal_rule_order_irrelevant (a b a' b' : Ruleset)
    (ha : a'.toList.Perm a.toList) (hb : b'.toList.Perm b.toList)
    (hnd : (b.toList.map Rule.Pattern).Nodup ∨ b'.toList = b.toList) :
    Ruleset.Equal a' b' = Ruleset.Equal a b := by
  rw [Bool.eq_iff_iff, Ruleset.Equal_iff, Ruleset.Equal_iff, ha.length_eq, hb.length_eq]
  refine and_congr_right fun _ => ?_
  rcases hnd with hnd | heq
  · have hnd' : (b'.toList.map Rule.Pattern).Nodup := (hb.map _).nodup_iff.mpr hnd
    simp only [lastMatch_eq_some_iff_of_nodup hnd, lastMatch_eq_some_iff_of_nodup hnd',
      ha.mem_iff, hb.mem_iff]
  · simp only [heq, ha.mem_iff]

/-- C4 (amended), instance: two distinct patterns, both sides reversed. -/
theorem equal_rule_order_irrelevant_witness :
    (Ruleset.slice [⟨"q".toList, []⟩, ⟨"p".toList, ["x".toList]⟩]).toList.Perm
        (Ruleset.slice [⟨"p".toList, ["x".toList]⟩, ⟨"q".toList, []⟩]).toList ∧
      ((Ruleset.slice [⟨"p".toList, ["x".toList]⟩, ⟨"q".toList, []⟩]).toList.map
        Rule.Pattern).Nodup ∧
      Ruleset.Equal (.slice [⟨"q".toList, []⟩, ⟨"p".toList, ["x".toList]⟩])
          (.slice [⟨"q".toList, []⟩, ⟨"p".toList, ["x".toList]⟩]) =
        Ruleset.Equal (.slice [⟨"p".toList, ["x".toList]⟩, ⟨"q".toList, []⟩])
          (.slice [⟨"p".toList, ["x".toList]⟩, ⟨"q".toList, []⟩]) :=
  ⟨List.Perm.swap _ _ _, by decide,
    equal_rule_order_irrelevant
      (.slice [⟨"p".toList, ["x".toList]⟩, ⟨"q".toList, []⟩])
      (.slice [⟨"p".toList, ["x".toList]⟩, ⟨"q".toList, []⟩])
      (.slice [⟨"q".toList, []⟩, ⟨"p".toList, ["x".toList]⟩])
      (.slice [⟨"q".toList, []⟩, ⟨"p".toList, ["x".toList]⟩])
      (List.Perm.swap _ _ _) (List.Perm.swap _ _ _) (Or.inl (by decide))⟩

/-! ## `Compile` -/

theorem foldl_append_eq_flatten {α : Type} (f : α → GoString) (l : List α) :
    ∀ init : GoString, l.foldl (fun out a => out ++ f a) init = init ++ (l.map f).flatten := by
  induction l with
  | nil => intro init; simp
  | cons a l ih => intro init; simp [ih]

theorem Ruleset.Compile.usernames_eq (names : List GoString) :
    Ruleset.Compile.usernames names =
      (names.map (fun o => Spec.writeOwner o ++ [' '])).flatten := by
  have h := foldl_append_eq_flatten (fun o => Spec.writeOwner o ++ [' ']) names []
  rw [List.nil_append] at h
  rw [← h]
  unfold Ruleset.Compile.usernames
  congr 1
  funext usernames username
  by_cases hat : '@' ∈ username <;> simp [Spec.writeOwner, hat]

/-- Helper: the output of `Compile` on a non-nil slice, as header plus one line per rule. -/
theorem Ruleset.Compile_slice (rules : List Rule) :
    Ruleset.Compile (.slice rules) =
      Ruleset.Compile.header ++ (rules.map Spec.ruleLine).flatten := by
  rw [← foldl_append_eq_flatten]
  show List.foldl _ _ _ = _
  congr 1
  funext output rule
  simp [Spec.ruleLine, Ruleset.Compile.usernames_eq]

/-- C5: for every non-nil ruleset, `Compile` returns the header line followed, for each
rule in order, by the pattern, one space, each owner in order followed by one space, and
`"\n"`, where an owner without `'@'` gets `'@'` put in front and an owner containing
`'@'` is written unchanged. -/
theorem compile_is_header_then_rule_lines (rules : List Rule) :
    Ruleset.Compile (.slice rules) = Spec.compiled rules := by
  rw [Ruleset.Compile_slice]
  rfl

/-- C8: `Compile` of the nil ruleset is the empty byte sequence, of length 0. -/
theorem compile_nil_is_empty :
    Ruleset.Compile .nil = [] ∧ (Ruleset.Compile .nil).length = 0 := by
  constructor <;> rfl

/-- C9: `Compile` of a non-nil ruleset with zero rules is exactly the header line, and
so differs from `Compile` of the nil ruleset. -/
theorem compile_empty_slice_is_header :
    Ruleset.Compile (.slice []) =
        "# automatically generated by terraform - please do not edit here\n".toList ∧
      Ruleset.Compile (.slice []) ≠ Ruleset.Compile .nil := by
  constructor
  · rfl
  · decide

/-! ## Splitting and trimming -/

theorem stringsSplit_ne_nil (sep : Char) (s : GoString) : stringsSplit sep s ≠ [] := by
  cases s with
  | nil => simp [stringsSplit]
  | cons c cs =>
    unfold stringsSplit
    by_cases h : c = sep
    · simp [h]
    · simp only [h, if_false]
      cases stringsSplit sep cs <;> simp

theorem stringsSplit_cons_ne {sep c : Char} (h : c ≠ sep) (cs : GoString) :
    stringsSplit sep (c :: cs) = (stringsSplit sep cs).modifyHead (List.cons c) := by
  rw [stringsSplit]
  simp only [h, if_false]
  cases hs : stringsSplit sep cs with
  | nil => exact absurd hs (stringsSplit_ne_nil sep cs)
  | cons w ws => rfl

theorem stringsSplit_eq_splitOn (sep : Char) (s : GoString) :
    stringsSplit sep s = s.splitOn sep := by
  induction s with
  | nil => rfl
  | cons c cs ih =>
    unfold List.splitOn at ih ⊢
    rw [List.splitOnP_cons]
    by_cases h : c = sep
    · subst h
      simp [stringsSplit, ih]
    · rw [stringsSplit_cons_ne h, ih]
      simp [h]

/-- Splitting distributes over a separator: the pieces before it, then the pieces after. -/
theorem stringsSplit_append_sep (sep : Char) (s t : GoString) :
    stringsSplit sep (s ++ sep :: t) = stringsSplit sep s ++ stringsSplit sep t := by
  induction s with
  | nil => simp [stringsSplit]
  | cons c cs ih =>
    by_cases h : c = sep
    · subst h
      simp [stringsSplit, ih]
    · rw [List.cons_append, stringsSplit_cons_ne h, stringsSplit_cons_ne h, ih]
      cases hs : stringsSplit sep cs with
      | nil => exact absurd hs (stringsSplit_ne_nil sep cs)
      | cons w ws => rfl

theorem stringsSplit_of_not_mem {sep : Char} {w : GoString} (h : sep ∉ w) :
    stringsSplit sep w = [w] := by
  induction w with
  | nil => rfl
  | cons c cs ih =>
    have hc : c ≠ sep := fun e => h (by simp [e])
    have hcs : sep ∉ cs := fun e => h (by simp [e])
    rw [stringsSplit_cons_ne hc, ih hcs]
    rfl

theorem stringsSplit_piece_sep {sep : Char} {w : GoString} (h : sep ∉ w) (t : GoString) :
    stringsSplit sep (w ++ sep :: t) = w :: stringsSplit sep t := by
  rw [stringsSplit_append_sep, stringsSplit_of_not_mem h]
  rfl

theorem stringsTrimSpace_eq (s : GoString) :
    stringsTrimSpace s = (s.dropWhile unicodeIsSpace).rdropWhile unicodeIsSpace := rfl

/-- The loop of `parseRulesFile` collects the rules of the lines that are not skipped. -/
theorem parseRulesFile_eq_filterMap (data : GoString) :
    parseRulesFile data =
      .slice ((stringsSplit '\n' data).filterMap parseRulesFile.line) := by
  have key : ∀ (ls : List GoString) (init : List Rule),
      ls.foldl (fun rules line =>
        match parseRulesFile.line line with
        | none => rules
        | some rule => rules ++ [rule]) init = init ++ ls.filterMap parseRulesFile.line := by
    intro ls
    induction ls with
    | nil => intro init; simp
    | cons l ls ih =>
      intro init
      rw [List.foldl_cons, ih, List.filterMap_cons]
      cases parseRulesFile.line l <;> simp
  unfold parseRulesFile
  rw [key]
  rfl

theorem parseRulesFile_toList (data : GoString) :
    (parseRulesFile data).toList = (stringsSplit '\n' data).filterMap parseRulesFile.line := by
  rw [parseRulesFile_eq_filterMap]
  rfl

/-- Helper: parsing is line by line. -/
theorem parseRulesFile_append_newline (s t : GoString) :
    (parseRulesFile (s ++ '\n' :: t)).toList =
      (parseRulesFile s).toList ++ (parseRulesFile t).toList := by
  simp only [parseRulesFile_toList, stringsSplit_append_sep, List.filterMap_append]

/-! ## The shape of a trimmed line -/

theorem find?_nonspace_eq_head?_dropWhile (l : GoString) :
    l.find? (fun c => !unicodeIsSpace c) = (l.dropWhile unicodeIsSpace).head? := by
  induction l with
  | nil => rfl
  | cons c cs ih =>
    by_cases h : unicodeIsSpace c = true
    · simp [List.find?_cons, List.dropWhile_cons, h, ih]
    · simp [List.find?_cons, List.dropWhile_cons, h]

theorem stringsTrimSpace_eq_nil_iff (l : GoString) :
    stringsTrimSpace l = [] ↔ l.find? (fun c => !unicodeIsSpace c) = none := by
  rw [stringsTrimSpace_eq, List.rdropWhile_eq_nil_iff, find?_nonspace_eq_head?_dropWhile]
  constructor
  · intro h
    cases hd : l.dropWhile unicodeIsSpace with
    | nil => rfl
    | cons c cs =>
      have h1 : unicodeIsSpace c = true := h c (by simp [hd])
      have h2 : ¬ unicodeIsSpace c = true := by
        have := List.head_dropWhile_not unicodeIsSpace l (by simp [hd])
        simpa [hd] using this
      exact absurd h1 h2
  · intro h
    have : l.dropWhile unicodeIsSpace = [] := by simpa using h
    simp [this]

/-- A non-empty trimmed line starts with the first non-whitespace character of the line
and ends with a non-whitespace character. -/
theorem stringsTrimSpace_cons {l : GoString} {c : Char} {t : GoString}
    (h : stringsTrimSpace l = c :: t) :
    l.find? (fun c => !unicodeIsSpace c) = some c ∧ unicodeIsSpace c = false ∧
      ∃ (t0 : GoString) (x : Char), c :: t = t0 ++ [x] ∧ unicodeIsSpace x = false := by
  rw [stringsTrimSpace_eq] at h
  have hpre : (c :: t) <+: l.dropWhile unicodeIsSpace := h ▸ List.rdropWhile_prefix unicodeIsSpace _
  have hne : (l.dropWhile unicodeIsSpace).rdropWhile unicodeIsSpace ≠ [] := by simp [h]
  have hlast := List.rdropWhile_last_not unicodeIsSpace (l.dropWhile unicodeIsSpace) hne
  obtain ⟨r, hr⟩ := hpre
  have hhead : (l.dropWhile unicodeIsSpace).head? = some c := by rw [← hr]; rfl
  have hc : unicodeIsSpace c = false := by
    have hd : l.dropWhile unicodeIsSpace ≠ [] := by rw [← hr]; simp
    have := List.head_dropWhile_not unicodeIsSpace l hd
    rw [List.head?_eq_head hd] at hhead
    cases hhead
    simpa using this
  refine ⟨by rw [find?_nonspace_eq_head?_dropWhile, hhead], hc, ?_⟩
  refine ⟨(c :: t).dropLast, (c :: t).getLast (by simp), ?_, ?_⟩
  · exact (List.dropLast_append_getLast _).symm
  · have : ∀ (u : GoString) (hu : u ≠ []),
        u = (l.dropWhile unicodeIsSpace).rdropWhile unicodeIsSpace →
        unicodeIsSpace (u.getLast hu) = false := by
      intro u hu e
      subst e
      simpa using hlast
    exact this _ _ h.symm

/-! ## One line of input -/

theorem foldl_addUsername (ws : List GoString) :
    ∀ r : Rule, ws.foldl parseRulesFile.addUsername r =
      { r with Usernames :=
          r.Usernames ++ (ws.filter (fun w => w ≠ [])).map Spec.stripAt } := by
  induction ws with
  | nil => intro r; simp
  | cons w ws ih =>
    intro r
    rw [List.foldl_cons, ih]
    cases w with
    | nil => simp [parseRulesFile.addUsername]
    | cons c rest =>
      by_cases hc : c = '@' <;>
        simp [parseRulesFile.addUsername, Spec.stripAt, hc]

theorem stringsSplit_last_ne_nil {sep x : Char} (hx : x ≠ sep) (s : GoString) :
    (stringsSplit sep (s ++ [x])).getLast? ≠ some [] := by
  induction s with
  | nil => simp [stringsSplit, hx]
  | cons c cs ih =>
    rw [List.cons_append]
    by_cases h : c = sep
    · subst h
      cases hs : stringsSplit c (cs ++ [x]) with
      | nil => exact absurd hs (stringsSplit_ne_nil _ _)
      | cons w ws =>
        rw [hs] at ih
        simpa [stringsSplit, hs] using ih
    · rw [stringsSplit_cons_ne h]
      cases hs : stringsSplit sep (cs ++ [x]) with
      | nil => exact absurd hs (stringsSplit_ne_nil _ _)
      | cons w ws =>
        rw [hs] at ih
        cases ws with
        | nil => simp
        | cons w2 ws2 => simpa using ih

/-- Helper: what the loop body of `parseRulesFile` does with one line, in the words of the
specification (with tokens separated by the space character only). -/
theorem parseRulesFile.line_eq (l : GoString) :
    parseRulesFile.line l =
      if Spec.skipped l = true then none else Spec.ruleOfTokens (Spec.spaceTokens l) := by
  unfold parseRulesFile.line
  cases ht : stringsTrimSpace l with
  | nil =>
    have := (stringsTrimSpace_eq_nil_iff l).mp ht
    simp [Spec.skipped, this]
  | cons c t =>
    obtain ⟨hfind, hc, t0, x, hsplit, hx⟩ := stringsTrimSpace_cons ht
    have hcsp : c ≠ ' ' := fun e => by rw [e] at hc; exact absurd hc (by decide)
    have hxsp : x ≠ ' ' := fun e => by rw [e] at hx; exact absurd hx (by decide)
    by_cases hhash : c = '#'
    · simp [Spec.skipped, hfind, hhash]
    · have htok : Spec.spaceTokens l =
          (stringsSplit ' ' (c :: t)).filter (fun w => w ≠ []) := by
        rw [stringsSplit_eq_splitOn, ← ht]
        rfl
      have hlast := stringsSplit_last_ne_nil hxsp t0
      rw [← hsplit] at hlast
      have hhead := stringsSplit_cons_ne hcsp t
      simp only [hhash, if_false, Spec.skipped, hfind, decide_False, Bool.false_eq_true,
        htok]
      cases hs : stringsSplit ' ' t with
      | nil => exact absurd hs (stringsSplit_ne_nil _ _)
      | cons w ws =>
        rw [hs] at hhead
        simp only [List.modifyHead_cons] at hhead
        rw [hhead] at hlast ⊢
        cases ws with
        | nil => simp [Spec.ruleOfTokens]
        | cons w2 ws2 =>
          simp only [foldl_addUsername, List.nil_append]
          rw [List.getLast?_cons_cons] at hlast
          have hne : (w2 :: ws2).filter (fun w => w ≠ []) ≠ [] := by
            cases hl : (w2 :: ws2).getLast? with
            | none => simp at hl
            | some y =>
              have hy : y ≠ [] := fun e => hlast (by rw [hl, e])
              have hmem := List.mem_of_getLast?_eq_some hl
              intro hnil
              have : y ∈ (w2 :: ws2).filter (fun w => w ≠ []) :=
                List.mem_filter.mpr ⟨hmem, by simpa using hy⟩
              rw [hnil] at this
              simp at this
          have hfil : ((c :: w) :: w2 :: ws2).filter (fun w => w ≠ []) =
              (c :: w) :: (w2 :: ws2).filter (fun w => w ≠ []) := by
            rw [List.filter_cons_of_pos]
            simp
          rw [hfil]
          cases hf : (w2 :: ws2).filter (fun w => w ≠ []) with
          | nil => exact absurd hf hne
          | cons o os => rfl

theorem stringsSplit_pieces (sep : Char) (s : GoString) :
    ∃ w ws, stringsSplit sep s = w :: ws ∧ w <+: s ∧ ∀ v ∈ ws, v <:+: s := by
  induction s with
  | nil => exact ⟨[], [], rfl, List.nil_prefix, by simp⟩
  | cons c cs ih =>
    obtain ⟨w, ws, hs, hw, hws⟩ := ih
    by_cases h : c = sep
    · subst h
      refine ⟨[], w :: ws, by simp [stringsSplit, hs], List.nil_prefix, ?_⟩
      intro v hv
      rcases List.mem_cons.mp hv with rfl | hv
      · exact List.infix_cons hw.isInfix
      · exact List.infix_cons (hws v hv)
    · refine ⟨c :: w, ws, by rw [stringsSplit_cons_ne h, hs]; rfl, ?_, ?_⟩
      · exact List.cons_prefix_cons.mpr ⟨rfl, hw⟩
      · intro v hv
        exact List.infix_cons (hws v hv)

theorem stringsSplit_piece_within {sep : Char} {s w : GoString}
    (h : w ∈ stringsSplit sep s) : w <:+: s := by
  obtain ⟨w0, ws, hs, hw, hws⟩ := stringsSplit_pieces sep s
  rw [hs] at h
  rcases List.mem_cons.mp h with rfl | h
  · exact hw.isInfix
  · exact hws w h

theorem stringsTrimSpace_within (l : GoString) : stringsTrimSpace l <:+: l :=
  (List.rdropWhile_prefix unicodeIsSpace _).isInfix.trans
    (List.dropWhile_suffix unicodeIsSpace).isInfix

theorem Spec.skipped_of_blank_or_comment {c : GoString}
    (h : c = [] ∨ (∀ x ∈ c, unicodeIsSpace x = true) ∨
      c.find? (fun x => !unicodeIsSpace x) = some '#') :
    Spec.skipped c = true := by
  unfold Spec.skipped
  rcases h with h | h | h
  · subst h; rfl
  · have : c.find? (fun x => !unicodeIsSpace x) = none := by
      rw [List.find?_eq_none]
      intro x hx
      simp [h x hx]
    rw [this]
  · rw [h]
    rfl

/-! ## Claims about `parseRulesFile` -/

/-- C6 (as stated, refuted): a tab inside a line separates tokens in the reference
parse but not in `parseRulesFile`, which drops the line `"a\tb"`. -/
theorem parse_differs_from_whitespace_token_reference :
    parseRulesFile "a\tb".toList = .slice [] ∧
      Spec.parseWith Spec.whitespaceTokens "a\tb".toList = [⟨"a".toList, ["b".toList]⟩] ∧
      parseRulesFile "a\tb".toList ≠
        .slice (Spec.parseWith Spec.whitespaceTokens "a\tb".toList) := by
  refine ⟨?_, ?_, ?_⟩ <;> decide

/-- C6 (amended): for every input text, `parseRulesFile` equals the reference parse in
which the tokens of a line are separated by the space character only: split the text
at `"\n"`; discard lines that are blank or whose first non-whitespace character is
`'#'`; strip the leading and trailing whitespace of each remaining line, cut it at
every space and drop the empty pieces; discard lines with fewer than two tokens; map
each surviving line, in order, to the rule whose pattern is the first token and whose
owners are the remaining tokens with a leading `'@'` removed. The sample text of the
specification yields the two rules it lists. -/
theorem parse_eq_space_token_reference (text : GoString) :
    parseRulesFile text = .slice (Spec.parseWith Spec.spaceTokens text) ∧
    parseRulesFile "*.go @alice bob\n# comment\n\ndocs/ carol\n".toList =
      .slice [⟨"*.go".toList, ["alice".toList, "bob".toList]⟩,
        ⟨"docs/".toList, ["carol".toList]⟩] := by
  refine ⟨?_, by decide⟩
  rw [parseRulesFile_eq_filterMap, stringsSplit_eq_splitOn]
  unfold Spec.parseWith
  rw [List.filterMap_filter]
  congr 2
  funext l
  rw [parseRulesFile.line_eq]
  by_cases h : Spec.skipped l = true <;> simp [h]

/-- C7 (as stated, refuted): the token `@@a` is read as the owner `@a`, which begins
with `'@'`. -/
theorem parsed_owner_may_begin_with_at :
    ¬ (∀ rule ∈ (parseRulesFile "p @@a".toList).toList, ∀ o ∈ rule.Usernames,
        o.head? ≠ some '@') := by
  decide

/-- C7 (amended): parsing removes one leading `'@'` from an owner token, so an owner
`o` of a parsed rule begins with `'@'` only if the text contains `'@'` directly
followed by `o`, i.e. only for a token that begins with `"@@"`. -/
theorem parsed_owner_begins_with_at_only_from_double_at (text : GoString) (rule : Rule)
    (o : GoString) (hrule : rule ∈ (parseRulesFile text).toList)
    (ho : o ∈ rule.Usernames) (hat : o.head? = some '@') :
    ('@' :: o) <:+: text := by
  rw [parseRulesFile_toList, List.mem_filterMap] at hrule
  obtain ⟨l, hl, hline⟩ := hrule
  rw [parseRulesFile.line_eq] at hline
  by_cases hsk : Spec.skipped l = true
  · simp [hsk] at hline
  · rw [if_neg hsk] at hline
    have hw : ∃ w ∈ Spec.spaceTokens l, Spec.stripAt w = o := by
      revert hline
      cases Spec.spaceTokens l with
      | nil => simp [Spec.ruleOfTokens]
      | cons p ps =>
        cases ps with
        | nil => simp [Spec.ruleOfTokens]
        | cons o1 os =>
          intro hline
          simp only [Spec.ruleOfTokens, Option.some.injEq] at hline
          subst hline
          obtain ⟨w, hw, rfl⟩ := List.mem_map.mp ho
          exact ⟨w, List.mem_cons_of_mem _ hw, rfl⟩
    obtain ⟨w, hw, hwo⟩ := hw
    have hwsplit : w ∈ stringsSplit ' ' (stringsTrimSpace l) := by
      rw [stringsSplit_eq_splitOn]
      exact (List.mem_filter.mp hw).1
    have hwe : w = '@' :: o := by
      cases w with
      | nil =>
        simp only [Spec.stripAt] at hwo
        subst hwo
        simp at hat
      | cons c rest =>
        by_cases hc : c = '@'
        · simp only [Spec.stripAt, hc, if_true] at hwo
          rw [hc, hwo]
        · simp only [Spec.stripAt, hc, if_false] at hwo
          subst hwo
          simp at hat
          exact absurd hat hc
    rw [← hwe]
    exact ((stringsSplit_piece_within hwsplit).trans (stringsTrimSpace_within l)).trans
      (stringsSplit_piece_within hl)

/-- C7 (amended), instance: the owner `@a` read from `"p @@a"`. -/
theorem parsed_owner_begins_with_at_only_from_double_at_witness :
    (⟨"p".toList, ["@a".toList]⟩ : Rule) ∈ (parseRulesFile "p @@a".toList).toList ∧
      "@a".toList ∈ (⟨"p".toList, ["@a".toList]⟩ : Rule).Usernames ∧
      "@a".toList.head? = some '@' ∧ ('@' :: "@a".toList) <:+: "p @@a".toList :=
  ⟨by decide, by decide, by decide,
    parsed_owner_begins_with_at_only_from_double_at "p @@a".toList
      ⟨"p".toList, ["@a".toList]⟩ "@a".toList (by decide) (by decide) (by decide)⟩

/-- C10: blank and comment lines are ignored on read. For all texts `s` and `t` and
every line `c` without `"\n"` that is empty, all whitespace, or has `'#'` as its first
non-whitespace character, `parseRulesFile(s + "\n" + c + "\n" + t)` equals
`parseRulesFile(s + "\n" + t)`. -/
theorem parse_ignores_blank_and_comment_lines (s t c : GoString)
    (hnl : '\n' ∉ c)
    (hc : c = [] ∨ (∀ x ∈ c, unicodeIsSpace x = true) ∨
      c.find? (fun x => !unicodeIsSpace x) = some '#') :
    parseRulesFile (s ++ ['\n'] ++ c ++ ['\n'] ++ t) = parseRulesFile (s ++ ['\n'] ++ t) := by
  have hline : parseRulesFile.line c = none := by
    rw [parseRulesFile.line_eq, Spec.skipped_of_blank_or_comment hc]
    rfl
  have e1 : s ++ ['\n'] ++ c ++ ['\n'] ++ t = s ++ '\n' :: (c ++ '\n' :: t) := by simp
  have e2 : s ++ ['\n'] ++ t = s ++ '\n' :: t := by simp
  rw [e1, e2, parseRulesFile_eq_filterMap, parseRulesFile_eq_filterMap,
    stringsSplit_append_sep, stringsSplit_append_sep, stringsSplit_append_sep,
    stringsSplit_of_not_mem hnl]
  simp [List.filterMap_cons, hline]

/-- C10, instance: a comment line between two rule lines. -/
theorem parse_ignores_blank_and_comment_lines_witness :
    '\n' ∉ " # note".toList ∧
      (" # note".toList.find? (fun x => !unicodeIsSpace x) = some '#') ∧
      parseRulesFile ("a @x".toList ++ ['\n'] ++ " # note".toList ++ ['\n'] ++ "b @y".toList) =
        parseRulesFile ("a @x".toList ++ ['\n'] ++ "b @y".toList) :=
  ⟨by decide, by decide,
    parse_ignores_blank_and_comment_lines "a @x".toList "b @y".toList " # note".toList
      (by decide) (Or.inr (Or.inr (by decide)))⟩

/-! ## Reading back what `Compile` wrote -/

theorem Spec.stripAt_writeOwner {o : GoString} (h : o.head? ≠ some '@') :
    Spec.stripAt (Spec.writeOwner o) = o := by
  unfold Spec.writeOwner
  by_cases hat : '@' ∈ o
  · rw [if_pos hat]
    cases o with
    | nil => rfl
    | cons c rest =>
      have hc : c ≠ '@' := fun e => h (by simp [e])
      simp [Spec.stripAt, hc]
  · rw [if_neg hat]
    simp [Spec.stripAt]

theorem Spec.writeOwner_ne_nil (o : GoString) : Spec.writeOwner o ≠ [] := by
  unfold Spec.writeOwner
  by_cases hat : '@' ∈ o
  · rw [if_pos hat]
    intro e
    rw [e] at hat
    simp at hat
  · rw [if_neg hat]
    simp

theorem Spec.writeOwner_no_space {o : GoString} (h : ∀ c ∈ o, unicodeIsSpace c = false) :
    ∀ c ∈ Spec.writeOwner o, unicodeIsSpace c = false := by
  unfold Spec.writeOwner
  by_cases hat : '@' ∈ o
  · rw [if_pos hat]
    exact h
  · rw [if_neg hat]
    intro c hc
    rcases List.mem_cons.mp hc with rfl | hc
    · decide
    · exact h c hc

theorem owners_shift (us : List GoString) :
    ' ' :: (us.map (fun o => Spec.writeOwner o ++ [' '])).flatten =
      (us.map (fun o => ' ' :: Spec.writeOwner o)).flatten ++ [' '] := by
  induction us with
  | nil => rfl
  | cons u us ih =>
    simp only [List.map_cons, List.flatten_cons, List.append_assoc, List.cons_append,
      List.singleton_append, List.nil_append]
    rw [ih]

/-- Cutting `w o₁ o₂ …` written with single spaces gives back `w, o₁, o₂, …` when
no piece contains a space. -/
theorem stringsSplit_space_joined (us : List GoString)
    (hus : ∀ u ∈ us, ' ' ∉ Spec.writeOwner u) :
    ∀ w : GoString, ' ' ∉ w →
      stringsSplit ' ' (w ++ (us.map (fun o => ' ' :: Spec.writeOwner o)).flatten) =
        w :: us.map Spec.writeOwner := by
  induction us with
  | nil =>
    intro w hw
    simpa using stringsSplit_of_not_mem hw
  | cons u us ih =>
    intro w hw
    have hu := hus u (by simp)
    have := ih (fun v hv => hus v (by simp [hv])) (Spec.writeOwner u) hu
    simp only [List.map_cons, List.flatten_cons, List.cons_append]
    rw [stringsSplit_piece_sep hw, this]

theorem not_mem_of_no_space {w : GoString} {x : Char} (hx : unicodeIsSpace x = true)
    (h : ∀ c ∈ w, unicodeIsSpace c = false) : x ∉ w := by
  intro hmem
  have := h x hmem
  rw [hx] at this
  exact absurd this (by decide)

/-- The text of a rule line without its final `"\n"`. -/
theorem Spec.ruleLine_eq (r : Rule) :
    Spec.ruleLine r =
      (r.Pattern ++ (r.Usernames.map (fun o => ' ' :: Spec.writeOwner o)).flatten ++ [' '])
        ++ ['\n'] := by
  unfold Spec.ruleLine
  have := owners_shift r.Usernames
  simp only [List.append_assoc, List.singleton_append, List.cons_append, List.nil_append,
    this]

/-- Helper: a line written by `Compile` for a well-formed rule is read back as that rule. -/
theorem parseRulesFile.line_written (r : Rule) (hr : r.WellFormed) :
    parseRulesFile.line
      (r.Pattern ++ (r.Usernames.map (fun o => ' ' :: Spec.writeOwner o)).flatten ++ [' '])
      = some r := by
  obtain ⟨P, us⟩ := r
  obtain ⟨hP, hPsp, hPhash, hus, huall⟩ := hr
  simp only at hP hPsp hPhash hus huall ⊢
  cases P with
  | nil => exact absurd rfl hP
  | cons c P' =>
    have hc : unicodeIsSpace c = false := hPsp c (by simp)
    have hchash : c ≠ '#' := fun e => hPhash (by simp [e])
    -- the last character of the line before the final space
    obtain ⟨us0, u, rfl⟩ : ∃ us0 u, us = us0 ++ [u] :=
      ⟨us.dropLast, us.getLast hus, (List.dropLast_append_getLast hus).symm⟩
    have hwu := Spec.writeOwner_ne_nil u
    have hlastx : unicodeIsSpace ((Spec.writeOwner u).getLast hwu) = false :=
      Spec.writeOwner_no_space (huall u (by simp)).1 _ (List.getLast_mem hwu)
    have hX : (c :: P') ++ ((us0 ++ [u]).map (fun o => ' ' :: Spec.writeOwner o)).flatten =
        ((c :: P') ++ (us0.map (fun o => ' ' :: Spec.writeOwner o)).flatten ++
          ' ' :: (Spec.writeOwner u).dropLast) ++ [(Spec.writeOwner u).getLast hwu] := by
      have := List.dropLast_append_getLast hwu
      simp only [List.map_append, List.flatten_append, List.map_cons, List.map_nil,
        List.flatten_cons, List.flatten_nil, List.append_nil, List.append_assoc,
        List.cons_append, this]
    have htrim : stringsTrimSpace
        ((c :: P') ++ ((us0 ++ [u]).map (fun o => ' ' :: Spec.writeOwner o)).flatten ++ [' '])
        = (c :: P') ++ ((us0 ++ [u]).map (fun o => ' ' :: Spec.writeOwner o)).flatten := by
      rw [stringsTrimSpace_eq]
      have hd : List.dropWhile unicodeIsSpace
          ((c :: P') ++ ((us0 ++ [u]).map (fun o => ' ' :: Spec.writeOwner o)).flatten ++ [' '])
          = (c :: P') ++ ((us0 ++ [u]).map (fun o => ' ' :: Spec.writeOwner o)).flatten ++ [' '] := by
        rw [List.cons_append, List.cons_append, List.dropWhile_cons_of_neg (by simp [hc])]
      rw [hd, List.rdropWhile_concat_pos _ _ _ (by decide), hX,
        List.rdropWhile_concat_neg _ _ _ (by simp [hlastx])]
    have hsplit := stringsSplit_space_joined (us0 ++ [u])
      (fun v hv => not_mem_of_no_space (by decide) (Spec.writeOwner_no_space (huall v hv).1))
      (c :: P') (not_mem_of_no_space (by decide) hPsp)
    unfold parseRulesFile.line
    rw [htrim]
    simp only [List.cons_append, hchash, if_false]
    rw [List.cons_append] at hsplit
    rw [hsplit]
    have hfil : ((us0 ++ [u]).map Spec.writeOwner).filter (fun w => w ≠ []) =
        (us0 ++ [u]).map Spec.writeOwner := by
      rw [List.filter_eq_self]
      intro w hw
      obtain ⟨v, -, rfl⟩ := List.mem_map.mp hw
      simpa using Spec.writeOwner_ne_nil v
    have hstrip : ((us0 ++ [u]).map Spec.writeOwner).map Spec.stripAt = us0 ++ [u] := by
      rw [List.map_map]
      conv_rhs => rw [← List.map_id (us0 ++ [u])]
      apply List.map_congr_left
      intro v hv
      exact Spec.stripAt_writeOwner (huall v hv).2
    obtain ⟨a, as, hm⟩ : ∃ a as, (us0 ++ [u]).map Spec.writeOwner = a :: as := by
      cases us0 <;> exact ⟨_, _, rfl⟩
    rw [hm]
    show some (List.foldl parseRulesFile.addUsername ⟨c :: P', []⟩ (a :: as)) = _
    rw [← hm, foldl_addUsername, hfil, hstrip]
    rfl

theorem written_line_no_newline (r : Rule) (hr : r.WellFormed) :
    '\n' ∉ r.Pattern ++ (r.Usernames.map (fun o => ' ' :: Spec.writeOwner o)).flatten ++ [' '] := by
  obtain ⟨-, hPsp, -, -, huall⟩ := hr
  intro hmem
  simp only [List.mem_append, List.mem_flatten, List.mem_map, List.mem_singleton] at hmem
  rcases hmem with (hmem | ⟨l, ⟨o, ho, rfl⟩, hmem⟩) | hmem
  · exact not_mem_of_no_space (by decide) hPsp hmem
  · rcases List.mem_cons.mp hmem with hmem | hmem
    · exact absurd hmem (by decide)
    · exact not_mem_of_no_space (by decide) (Spec.writeOwner_no_space (huall o ho).1) hmem
  · exact absurd hmem (by decide)

theorem stringsSplit_written_lines (rs : List Rule) (h : ∀ r ∈ rs, r.WellFormed) :
    stringsSplit '\n' (rs.map Spec.ruleLine).flatten =
      rs.map (fun r =>
        r.Pattern ++ (r.Usernames.map (fun o => ' ' :: Spec.writeOwner o)).flatten ++ [' '])
      ++ [[]] := by
  induction rs with
  | nil => rfl
  | cons r rs ih =>
    have hr := h r (by simp)
    have ih' := ih (fun q hq => h q (by simp [hq]))
    simp only [List.map_cons, List.flatten_cons, List.cons_append]
    rw [Spec.ruleLine_eq, List.append_assoc, List.singleton_append,
      stringsSplit_piece_sep (written_line_no_newline r hr), ih']

theorem filterMap_line_written (rs : List Rule) (h : ∀ r ∈ rs, r.WellFormed) :
    (rs.map (fun r =>
        r.Pattern ++ (r.Usernames.map (fun o => ' ' :: Spec.writeOwner o)).flatten ++ [' '])).filterMap
      parseRulesFile.line = rs := by
  induction rs with
  | nil => rfl
  | cons r rs ih =>
    rw [List.map_cons, List.filterMap_cons,
      parseRulesFile.line_written r (h r (by simp)), ih (fun q hq => h q (by simp [hq]))]

/-- Helper: parsing the output of `Compile` gives back the rules, for well-formed rules. -/
theorem parse_compile_toList (r : Ruleset) (h : ∀ rule ∈ r.toList, rule.WellFormed) :
    (parseRulesFile (Ruleset.Compile r)).toList = r.toList := by
  cases r with
  | nil => rfl
  | slice rs =>
    have hheader : Ruleset.Compile.header =
        "# automatically generated by terraform - please do not edit here".toList ++
          '\n' :: [] := by decide
    have hnl : '\n' ∉
        "# automatically generated by terraform - please do not edit here".toList := by decide
    have hline : parseRulesFile.line
        "# automatically generated by terraform - please do not edit here".toList = none := by
      decide
    rw [parseRulesFile_toList, Ruleset.Compile_slice, hheader, List.append_assoc,
      List.cons_append, List.nil_append, stringsSplit_piece_sep hnl,
      stringsSplit_written_lines rs h, List.filterMap_cons, hline, List.filterMap_append,
      filterMap_line_written rs h]
    simp [Ruleset.toList, parseRulesFile.line, stringsTrimSpace]

theorem Ruleset.Equal_of_toList_eq {a b : Ruleset} (h : a.toList = b.toList)
    (hnd : (a.toList.map Rule.Pattern).Nodup) :
    Ruleset.Equal a b = true ∧ Ruleset.Equal b a = true := by
  rw [Ruleset.Equal_iff, Ruleset.Equal_iff, ← h]
  have key : ∀ rule ∈ a.toList, ∃ c, lastMatch rule.Pattern a.toList = some c ∧
      rule.Usernames.Perm c.Usernames := fun rule hrule =>
    ⟨rule, (lastMatch_eq_some_iff_of_nodup hnd _ _).mpr ⟨hrule, rfl⟩, List.Perm.refl _⟩
  exact ⟨⟨rfl, key⟩, ⟨rfl, key⟩⟩

/-! ## Round trip -/

/-- C1 (as stated, refuted): a one-rule ruleset whose owner is stored with its `'@'`
prefix is read back without it, and a pattern containing a space is read back cut in
two; in both cases the ruleset is not `Equal` to the parse of its compiled text, in
either direction. -/
theorem round_trip_fails_for_prefixed_owner_or_spaced_pattern :
    Ruleset.Equal (.slice [⟨"p".toList, ["@a".toList]⟩])
        (parseRulesFile (Ruleset.Compile (.slice [⟨"p".toList, ["@a".toList]⟩]))) = false ∧
      Ruleset.Equal
        (parseRulesFile (Ruleset.Compile (.slice [⟨"p".toList, ["@a".toList]⟩])))
        (.slice [⟨"p".toList, ["@a".toList]⟩]) = false ∧
      Ruleset.Equal (.slice [⟨"a b".toList, ["x".toList]⟩])
        (parseRulesFile (Ruleset.Compile (.slice [⟨"a b".toList, ["x".toList]⟩]))) = false ∧
      Ruleset.Equal
        (parseRulesFile (Ruleset.Compile (.slice [⟨"a b".toList, ["x".toList]⟩])))
        (.slice [⟨"a b".toList, ["x".toList]⟩]) = false := by
  refine ⟨?_, ?_, ?_, ?_⟩ <;> decide

/-- C1 (amended): for every ruleset `r` that has no two rules with the same pattern and
in which every pattern is non-empty, contains no whitespace and does not begin with
`'#'`, every rule has at least one owner, and no owner contains whitespace or begins
with `'@'` (owners are stored bare; `Compile` writes the `'@'` prefix),
`Equal(r, parseRulesFile(Compile(r)))` and `Equal(parseRulesFile(Compile(r)), r)` are
true. -/
theorem round_trip_equal (r : Ruleset)
    (hnd : (r.toList.map Rule.Pattern).Nodup)
    (hwf : ∀ rule ∈ r.toList, rule.WellFormed) :
    Ruleset.Equal r (parseRulesFile (Ruleset.Compile r)) = true ∧
      Ruleset.Equal (parseRulesFile (Ruleset.Compile r)) r = true :=
  Ruleset.Equal_of_toList_eq (parse_compile_toList r hwf).symm hnd

/-- C1 (amended), instance: a two-rule ruleset with a username and an e-mail owner. -/
theorem round_trip_equal_witness :
    ((Ruleset.slice [⟨"*.go".toList, ["alice".toList, "bob@x.org".toList]⟩,
        ⟨"docs/".toList, ["carol".toList]⟩]).toList.map Rule.Pattern).Nodup ∧
      (∀ rule ∈ (Ruleset.slice [⟨"*.go".toList, ["alice".toList, "bob@x.org".toList]⟩,
        ⟨"docs/".toList, ["carol".toList]⟩]).toList, rule.WellFormed) ∧
      (Ruleset.Equal
          (.slice [⟨"*.go".toList, ["alice".toList, "bob@x.org".toList]⟩,
            ⟨"docs/".toList, ["carol".toList]⟩])
          (parseRulesFile (Ruleset.Compile
            (.slice [⟨"*.go".toList, ["alice".toList, "bob@x.org".toList]⟩,
              ⟨"docs/".toList, ["carol".toList]⟩]))) = true ∧
        Ruleset.Equal
          (parseRulesFile (Ruleset.Compile
            (.slice [⟨"*.go".toList, ["alice".toList, "bob@x.org".toList]⟩,
              ⟨"docs/".toList, ["carol".toList]⟩])))
          (.slice [⟨"*.go".toList, ["alice".toList, "bob@x.org".toList]⟩,
            ⟨"docs/".toList, ["carol".toList]⟩]) = true) :=
  ⟨by decide, by decide,
    round_trip_equal
      (.slice [⟨"*.go".toList, ["alice".toList, "bob@x.org".toList]⟩,
        ⟨"docs/".toList, ["carol".toList]⟩])
      (by decide) (by decide)⟩

/-! ## `Equal` on rulesets without repeated patterns -/

theorem Ruleset.Equal_iff_of_nodup (a b : Ruleset)
    (hb : (b.toList.map Rule.Pattern).Nodup) :
    Ruleset.Equal a b = true ↔
      a.toList.length = b.toList.length ∧
      ∀ rule ∈ a.toList, ∃ c ∈ b.toList, c.Pattern = rule.Pattern ∧
        rule.Usernames.Perm c.Usernames := by
  rw [Ruleset.Equal_iff]
  refine and_congr_right fun _ => forall₂_congr fun rule _ => ?_
  constructor
  · rintro ⟨c, hc, hp⟩
    exact ⟨c, ((lastMatch_eq_some_iff_of_nodup hb _ _).mp hc).1,
      ((lastMatch_eq_some_iff_of_nodup hb _ _).mp hc).2, hp⟩
  · rintro ⟨c, hc, hcp, hp⟩
    exact ⟨c, (lastMatch_eq_some_iff_of_nodup hb _ _).mpr ⟨hc, hcp⟩, hp⟩

/-- If the patterns of `a` are pairwise distinct, `b` is as long as `a` and every pattern
of `a` occurs in `b`, then the two pattern lists are permutations of each other. -/
theorem patterns_perm_of_covered {a b : List Rule}
    (ha : (a.map Rule.Pattern).Nodup) (hlen : a.length = b.length)
    (h : ∀ r ∈ a, ∃ c ∈ b, c.Pattern = r.Pattern) :
    (a.map Rule.Pattern).Perm (b.map Rule.Pattern) := by
  have hsub : a.map Rule.Pattern ⊆ b.map Rule.Pattern := by
    intro p hp
    obtain ⟨r, hr, rfl⟩ := List.mem_map.mp hp
    obtain ⟨c, hc, hcp⟩ := h r hr
    exact List.mem_map.mpr ⟨c, hc, hcp⟩
  exact (List.Nodup.subperm ha hsub).perm_of_length_le (by simp [hlen])

theorem Ruleset.Equal_symm_of_nodup {a b : Ruleset}
    (ha : (a.toList.map Rule.Pattern).Nodup) (hb : (b.toList.map Rule.Pattern).Nodup)
    (h : Ruleset.Equal a b = true) : Ruleset.Equal b a = true := by
  rw [Ruleset.Equal_iff_of_nodup a b hb] at h
  rw [Ruleset.Equal_iff_of_nodup b a ha]
  obtain ⟨hlen, hall⟩ := h
  refine ⟨hlen.symm, fun c hc => ?_⟩
  have hperm := patterns_perm_of_covered ha hlen
    (fun r hr => (hall r hr).imp fun c hc => ⟨hc.1, hc.2.1⟩)
  have hcp : c.Pattern ∈ a.toList.map Rule.Pattern :=
    hperm.mem_iff.mpr (List.mem_map.mpr ⟨c, hc, rfl⟩)
  obtain ⟨r, hr, hrp⟩ := List.mem_map.mp hcp
  obtain ⟨c', hc', hcp', hp⟩ := hall r hr
  have : c' = c := List.inj_on_of_nodup_map hb hc' hc (hcp'.trans hrp)
  subst this
  exact ⟨r, hr, hrp, hp.symm⟩

theorem forall₂_filterMap_of_forall {α β : Type} {R : α → β → Prop} (f : α → Option β) :
    ∀ l : List α, (∀ x ∈ l, ∃ y, f x = some y ∧ R x y) →
      List.Forall₂ R l (l.filterMap f) := by
  intro l
  induction l with
  | nil => intro _; exact List.Forall₂.nil
  | cons x xs ih =>
    intro h
    obtain ⟨y, hy, hR⟩ := h x (by simp)
    rw [List.filterMap_cons, hy]
    exact List.Forall₂.cons hR (ih fun z hz => h z (by simp [hz]))

theorem forall₂_same_patterns {a b : List Rule} (h : List.Forall₂ Rule.Same a b) :
    a.map Rule.Pattern = b.map Rule.Pattern ∧ ∀ r ∈ a, ∃ c ∈ b, Rule.Same r c := by
  induction h with
  | nil => simp
  | cons hrc _ ih =>
    obtain ⟨ihp, ihm⟩ := ih
    refine ⟨by simp [hrc.1, ihp], ?_⟩
    intro r hr
    rcases List.mem_cons.mp hr with rfl | hr
    · exact ⟨_, by simp, hrc⟩
    · obtain ⟨c, hc, hs⟩ := ihm r hr
      exact ⟨c, by simp [hc], hs⟩

/-- Helper: for a receiver without repeated patterns, `Equal` is equality of the two
rulesets as multisets of rules up to `Rule.Same`. -/
theorem Ruleset.Equal_iff_sameRuleMultiset (a b : Ruleset)
    (ha : (a.toList.map Rule.Pattern).Nodup) :
    Ruleset.Equal a b = true ↔ SameRuleMultiset a.toList b.toList := by
  constructor
  · intro h
    rw [Ruleset.Equal_iff] at h
    obtain ⟨hlen, hall⟩ := h
    have hF := forall₂_filterMap_of_forall (R := Rule.Same)
      (fun r => lastMatch r.Pattern b.toList) a.toList
      (fun r hr => by
        obtain ⟨c, hc, hp⟩ := hall r hr
        exact ⟨c, hc, (lastMatch_some hc).2.symm, hp⟩)
    refine ⟨_, ?_, hF⟩
    have hpat := (forall₂_same_patterns hF).1
    have hnd : (a.toList.filterMap (fun r => lastMatch r.Pattern b.toList)).Nodup :=
      List.Nodup.of_map Rule.Pattern (hpat ▸ ha)
    have hsub : a.toList.filterMap (fun r => lastMatch r.Pattern b.toList) ⊆ b.toList := by
      intro c hc
      obtain ⟨r, -, hr⟩ := List.mem_filterMap.mp hc
      exact (lastMatch_some hr).1
    exact (List.Nodup.subperm hnd hsub).perm_of_length_le
      (by rw [← hF.length_eq, hlen])
  · rintro ⟨b', hperm, hF⟩
    obtain ⟨hpat, hmem⟩ := forall₂_same_patterns hF
    have hb : (b.toList.map Rule.Pattern).Nodup :=
      (hperm.map Rule.Pattern).nodup_iff.mp (hpat ▸ ha)
    rw [Ruleset.Equal_iff_of_nodup a b hb]
    refine ⟨by rw [hF.length_eq, hperm.length_eq], fun r hr => ?_⟩
    obtain ⟨c, hc, hs⟩ := hmem r hr
    exact ⟨c, hperm.mem_iff.mp hc, hs.1.symm, hs.2⟩

/-! ## Further claims about `Equal` -/

/-- C12: rulesets of different lengths are never equal; for instance the empty ruleset
and a one-rule ruleset. -/
theorem equal_false_of_length_ne (a b : Ruleset) (h : a.len ≠ b.len) :
    Ruleset.Equal a b = false := by
  unfold Ruleset.Equal
  rw [if_pos h]

/-- C12, instance: `Equal([], [{p,["a"]}])` is false. -/
theorem equal_false_of_length_ne_witness :
    (Ruleset.slice []).len ≠ (Ruleset.slice [⟨"p".toList, ["a".toList]⟩]).len ∧
      Ruleset.Equal (.slice []) (.slice [⟨"p".toList, ["a".toList]⟩]) = false :=
  ⟨by decide,
    equal_false_of_length_ne (.slice []) (.slice [⟨"p".toList, ["a".toList]⟩]) (by decide)⟩

/-- C15 (as stated, refuted): with `a = [{p,[x]},{p,[x]}]` and `b = [{p,[y]},{p,[x]}]`
the lengths agree and `a.Equal(b)` is true, although the first rule of `b` with pattern
`p` has owners `[y]`, not a permutation of `[x]`. -/
theorem equal_does_not_check_first_match :
    (Ruleset.slice [⟨"p".toList, ["x".toList]⟩, ⟨"p".toList, ["x".toList]⟩]).len =
        (Ruleset.slice [⟨"p".toList, ["y".toList]⟩, ⟨"p".toList, ["x".toList]⟩]).len ∧
      Ruleset.Equal (.slice [⟨"p".toList, ["x".toList]⟩, ⟨"p".toList, ["x".toList]⟩])
        (.slice [⟨"p".toList, ["y".toList]⟩, ⟨"p".toList, ["x".toList]⟩]) = true ∧
      ¬ (∀ r ∈ [(⟨"p".toList, ["x".toList]⟩ : Rule), ⟨"p".toList, ["x".toList]⟩],
          ∃ c, firstMatch r.Pattern
              [⟨"p".toList, ["y".toList]⟩, ⟨"p".toList, ["x".toList]⟩] = some c ∧
            r.Usernames.Perm c.Usernames) := by
  refine ⟨by decide, by decide, ?_⟩
  intro h
  obtain ⟨c, hc, hp⟩ := h ⟨"p".toList, ["x".toList]⟩ (by simp)
  have hc' : c = ⟨"p".toList, ["y".toList]⟩ := by
    have : firstMatch "p".toList
        [⟨"p".toList, ["y".toList]⟩, ⟨"p".toList, ["x".toList]⟩] =
        some ⟨"p".toList, ["y".toList]⟩ := by decide
    rw [this] at hc
    exact (Option.some.inj hc).symm
  subst hc'
  have := (sameStringSlice_iff_perm _ _).mpr hp
  revert this
  decide

/-- C15 (amended): for rulesets `a` and `b` of equal length, `a.Equal(b)` is true if and
only if, for every rule `r` of `a`, `b` contains a rule with pattern `r.Pattern` and the
LAST such rule of `b` (highest index) has an owner list that is a permutation of the
owner list of `r`. -/
theorem equal_checks_last_match (a b : Ruleset) (hlen : a.len = b.len) :
    Ruleset.Equal a b = true ↔
      ∀ r ∈ a.toList, ∃ c, lastMatch r.Pattern b.toList = some c ∧
        r.Usernames.Perm c.Usernames := by
  rw [Ruleset.Equal_iff]
  exact and_iff_right hlen

/-- C15 (amended), instance: the rulesets of the refutation. -/
theorem equal_checks_last_match_witness :
    (Ruleset.slice [⟨"p".toList, ["x".toList]⟩, ⟨"p".toList, ["x".toList]⟩]).len =
        (Ruleset.slice [⟨"p".toList, ["y".toList]⟩, ⟨"p".toList, ["x".toList]⟩]).len ∧
      (Ruleset.Equal (.slice [⟨"p".toList, ["x".toList]⟩, ⟨"p".toList, ["x".toList]⟩])
          (.slice [⟨"p".toList, ["y".toList]⟩, ⟨"p".toList, ["x".toList]⟩]) = true ↔
        ∀ r ∈ (Ruleset.slice
            [⟨"p".toList, ["x".toList]⟩, ⟨"p".toList, ["x".toList]⟩]).toList,
          ∃ c, lastMatch r.Pattern (Ruleset.slice
              [⟨"p".toList, ["y".toList]⟩, ⟨"p".toList, ["x".toList]⟩]).toList = some c ∧
            r.Usernames.Perm c.Usernames) :=
  ⟨by decide,
    equal_checks_last_match
      (.slice [⟨"p".toList, ["x".toList]⟩, ⟨"p".toList, ["x".toList]⟩])
      (.slice [⟨"p".toList, ["y".toList]⟩, ⟨"p".toList, ["x".toList]⟩]) (by decide)⟩

/-- C16: on rulesets in each of which no pattern occurs in more than one rule, `Equal`
is symmetric: `a.Equal(b) = b.Equal(a)`. -/
theorem equal_symmetric_without_duplicates (a b : Ruleset)
    (ha : (a.toList.map Rule.Pattern).Nodup) (hb : (b.toList.map Rule.Pattern).Nodup) :
    Ruleset.Equal a b = Ruleset.Equal b a := by
  rw [Bool.eq_iff_iff]
  exact ⟨Ruleset.Equal_symm_of_nodup ha hb, Ruleset.Equal_symm_of_nodup hb ha⟩

/-- C16, instance: two rulesets with the same two rules in opposite order. -/
theorem equal_symmetric_without_duplicates_witness :
    ((Ruleset.slice [⟨"p".toList, ["x".toList, "y".toList]⟩, ⟨"q".toList, []⟩]).toList.map
        Rule.Pattern).Nodup ∧
      ((Ruleset.slice [⟨"q".toList, []⟩, ⟨"p".toList, ["y".toList, "x".toList]⟩]).toList.map
        Rule.Pattern).Nodup ∧
      Ruleset.Equal (.slice [⟨"p".toList, ["x".toList, "y".toList]⟩, ⟨"q".toList, []⟩])
          (.slice [⟨"q".toList, []⟩, ⟨"p".toList, ["y".toList, "x".toList]⟩]) =
        Ruleset.Equal (.slice [⟨"q".toList, []⟩, ⟨"p".toList, ["y".toList, "x".toList]⟩])
          (.slice [⟨"p".toList, ["x".toList, "y".toList]⟩, ⟨"q".toList, []⟩]) :=
  ⟨by decide, by decide,
    equal_symmetric_without_duplicates
      (.slice [⟨"p".toList, ["x".toList, "y".toList]⟩, ⟨"q".toList, []⟩])
      (.slice [⟨"q".toList, []⟩, ⟨"p".toList, ["y".toList, "x".toList]⟩])
      (by decide) (by decide)⟩

/-- C17 (as stated, refuted): the ruleset `[{p,[a]},{p,[b]}]` equals itself as a
multiset of rules, yet `Equal` of it with itself is false. -/
theorem equal_differs_from_multiset_equality_on_duplicates :
    SameRuleMultiset [⟨"p".toList, ["a".toList]⟩, ⟨"p".toList, ["b".toList]⟩]
        [⟨"p".toList, ["a".toList]⟩, ⟨"p".toList, ["b".toList]⟩] ∧
      Ruleset.Equal (.slice [⟨"p".toList, ["a".toList]⟩, ⟨"p".toList, ["b".toList]⟩])
        (.slice [⟨"p".toList, ["a".toList]⟩, ⟨"p".toList, ["b".toList]⟩]) = false := by
  refine ⟨⟨_, List.Perm.refl _, ?_⟩, by decide⟩
  exact List.forall₂_same.mpr fun r _ => ⟨rfl, List.Perm.refl _⟩

/-- C17 (amended): when no pattern occurs in more than one rule of `a`, `a.Equal(b)` is
true if and only if `a` and `b` are equal as multisets of rules, two rules counting as
the same when their patterns are equal and their owner lists are permutations of each
other. -/
theorem equal_iff_multiset_equality_without_duplicates (a b : Ruleset)
    (ha : (a.toList.map Rule.Pattern).Nodup) :
    Ruleset.Equal a b = true ↔ SameRuleMultiset a.toList b.toList :=
  Ruleset.Equal_iff_sameRuleMultiset a b ha

/-- C17 (amended), instance: a receiver with two distinct patterns. -/
theorem equal_iff_multiset_equality_without_duplicates_witness :
    ((Ruleset.slice [⟨"p".toList, ["x".toList]⟩, ⟨"q".toList, []⟩]).toList.map
        Rule.Pattern).Nodup ∧
      (Ruleset.Equal (.slice [⟨"p".toList, ["x".toList]⟩, ⟨"q".toList, []⟩])
          (.slice [⟨"q".toList, []⟩, ⟨"p".toList, ["x".toList]⟩]) = true ↔
        SameRuleMultiset
          (Ruleset.slice [⟨"p".toList, ["x".toList]⟩, ⟨"q".toList, []⟩]).toList
          (Ruleset.slice [⟨"q".toList, []⟩, ⟨"p".toList, ["x".toList]⟩]).toList) :=
  ⟨by decide,
    equal_iff_multiset_equality_without_duplicates
      (.slice [⟨"p".toList, ["x".toList]⟩, ⟨"q".toList, []⟩])
      (.slice [⟨"q".toList, []⟩, ⟨"p".toList, ["x".toList]⟩]) (by decide)⟩

/-! ## Further claims about `parseRulesFile` and the round trip -/

theorem parseRulesFile_eq_slice_toList (data : GoString) :
    parseRulesFile data = .slice (parseRulesFile data).toList := by
  rw [parseRulesFile_eq_filterMap]
  rfl

theorem stringsSplit_piece_no_sep {sep : Char} (s : GoString) :
    ∀ w ∈ stringsSplit sep s, sep ∉ w := by
  induction s with
  | nil => simp [stringsSplit]
  | cons c cs ih =>
    intro w hw
    by_cases h : c = sep
    · subst h
      simp only [stringsSplit, if_true, List.mem_cons] at hw
      rcases hw with rfl | hw
      · simp
      · exact ih w hw
    · rw [stringsSplit_cons_ne h] at hw
      cases hs : stringsSplit sep cs with
      | nil => exact absurd hs (stringsSplit_ne_nil _ _)
      | cons w0 ws =>
        rw [hs] at hw ih
        simp only [List.modifyHead_cons, List.mem_cons] at hw
        rcases hw with rfl | hw
        · have h0 := ih w0 (by simp)
          intro hmem
          rcases List.mem_cons.mp hmem with e | e
          · exact h e.symm
          · exact h0 e
        · exact ih w (by simp [hw])

/-- The shape of a rule produced by the loop body of `parseRulesFile`. -/
theorem parseRulesFile.line_some {l : GoString} {rule : Rule}
    (h : parseRulesFile.line l = some rule) :
    rule.Pattern ≠ [] ∧ ' ' ∉ rule.Pattern ∧ rule.Pattern.head? ≠ some '#' ∧
      rule.Usernames ≠ [] := by
  rw [parseRulesFile.line_eq] at h
  cases ht : stringsTrimSpace l with
  | nil =>
    have := (stringsTrimSpace_eq_nil_iff l).mp ht
    simp [Spec.skipped, this] at h
  | cons c t =>
    obtain ⟨hfind, hc, -⟩ := stringsTrimSpace_cons ht
    have hcsp : c ≠ ' ' := fun e => by rw [e] at hc; exact absurd hc (by decide)
    by_cases hhash : c = '#'
    · simp [Spec.skipped, hfind, hhash] at h
    · have hsk : ¬ Spec.skipped l = true := by simp [Spec.skipped, hfind, hhash]
      rw [if_neg hsk] at h
      have htok : Spec.spaceTokens l =
          (stringsSplit ' ' (c :: t)).filter (fun w => w ≠ []) := by
        rw [stringsSplit_eq_splitOn, ← ht]
        rfl
      have hno := @stringsSplit_piece_no_sep ' ' (c :: t)
      rw [htok] at h
      rw [stringsSplit_cons_ne hcsp] at h hno
      cases hs : stringsSplit ' ' t with
      | nil => exact absurd hs (stringsSplit_ne_nil _ _)
      | cons w ws =>
        rw [hs] at h hno
        simp only [List.modifyHead_cons] at h hno
        have hfil : ((c :: w) :: ws).filter (fun w => w ≠ []) =
            (c :: w) :: ws.filter (fun w => w ≠ []) := by
          rw [List.filter_cons_of_pos]
          simp
        rw [hfil] at h
        cases hf : ws.filter (fun w => w ≠ []) with
        | nil => rw [hf] at h; simp [Spec.ruleOfTokens] at h
        | cons o os =>
          rw [hf] at h
          simp only [Spec.ruleOfTokens, Option.some.injEq] at h
          subst h
          refine ⟨by simp, hno _ (by simp), ?_, by simp⟩
          simpa using hhash

/-- C18: exact round trip. For every non-nil ruleset in which every pattern is
non-empty, contains no whitespace character and does not begin with `'#'`, every rule
has at least one owner, and every owner contains no whitespace character and does not
begin with `'@'`, `parseRulesFile(Compile(r))` is the same list of rules as `r`. -/
theorem parse_compile_exact_round_trip (rules : List Rule)
    (h : ∀ rule ∈ rules, rule.WellFormed) :
    parseRulesFile (Ruleset.Compile (.slice rules)) = .slice rules := by
  rw [parseRulesFile_eq_slice_toList, parse_compile_toList (.slice rules) h]
  rfl

/-- C18, instance: two rules, one with a username and an e-mail owner. -/
theorem parse_compile_exact_round_trip_witness :
    (∀ rule ∈ [(⟨"*.go".toList, ["alice".toList, "bob@x.org".toList]⟩ : Rule),
        ⟨"docs/".toList, ["carol".toList]⟩], rule.WellFormed) ∧
      parseRulesFile (Ruleset.Compile
          (.slice [⟨"*.go".toList, ["alice".toList, "bob@x.org".toList]⟩,
            ⟨"docs/".toList, ["carol".toList]⟩])) =
        .slice [⟨"*.go".toList, ["alice".toList, "bob@x.org".toList]⟩,
          ⟨"docs/".toList, ["carol".toList]⟩] :=
  ⟨by decide,
    parse_compile_exact_round_trip
      [⟨"*.go".toList, ["alice".toList, "bob@x.org".toList]⟩,
        ⟨"docs/".toList, ["carol".toList]⟩] (by decide)⟩

/-- C19: every parsed rule is well formed. For every input text `parseRulesFile` returns
a non-nil ruleset, so `Compile` of it starts with the header line, and every rule in it
has a non-empty pattern that contains no space and does not begin with `'#'`, and has at
least one owner. -/
theorem parsed_rules_are_well_formed (text : GoString) :
    parseRulesFile text ≠ .nil ∧
      (∃ rest, Ruleset.Compile (parseRulesFile text) =
        "# automatically generated by terraform - please do not edit here\n".toList ++ rest) ∧
      ∀ rule ∈ (parseRulesFile text).toList,
        rule.Pattern ≠ [] ∧ ' ' ∉ rule.Pattern ∧ rule.Pattern.head? ≠ some '#' ∧
          rule.Usernames ≠ [] := by
  refine ⟨?_, ?_, ?_⟩
  · rw [parseRulesFile_eq_slice_toList]
    exact fun h => Ruleset.noConfusion h
  · rw [parseRulesFile_eq_slice_toList, Ruleset.Compile_slice]
    exact ⟨_, rfl⟩
  · intro rule hrule
    rw [parseRulesFile_toList, List.mem_filterMap] at hrule
    obtain ⟨l, -, hl⟩ := hrule
    exact parseRulesFile.line_some hl

/-- C20: parsing is line by line and order preserving:
`parseRulesFile(s + "\n" + t)` is the rules of `parseRulesFile(s)` followed by the rules
of `parseRulesFile(t)`. -/
theorem parse_append_newline (s t : GoString) :
    parseRulesFile (s ++ ['\n'] ++ t) =
      .slice ((parseRulesFile s).toList ++ (parseRulesFile t).toList) := by
  rw [parseRulesFile_eq_slice_toList (s ++ ['\n'] ++ t)]
  have e : s ++ ['\n'] ++ t = s ++ '\n' :: t := by simp
  rw [e, parseRulesFile_append_newline]

/-! ## No index of `parseRulesFile` is out of range -/

theorem parseRulesFile.addUsernameChecked_eq (rule : Rule) (username : GoString) :
    parseRulesFile.addUsernameChecked rule username =
      some (parseRulesFile.addUsername rule username) := by
  cases username with
  | nil => rfl
  | cons c rest =>
    by_cases hc : c = '@' <;>
      simp [parseRulesFile.addUsernameChecked, parseRulesFile.addUsername, goIndex,
        goSliceFrom, hc]

theorem parseRulesFile.usernamesChecked_eq (words : List GoString) :
    ∀ rule : Rule, parseRulesFile.usernamesChecked rule words =
      some (words.foldl parseRulesFile.addUsername rule) := by
  induction words with
  | nil => intro rule; rfl
  | cons w ws ih =>
    intro rule
    rw [parseRulesFile.usernamesChecked, parseRulesFile.addUsernameChecked_eq]
    exact ih _

theorem parseRulesFile.lineChecked_eq (line : GoString) :
    parseRulesFile.lineChecked line = some (parseRulesFile.line line) := by
  unfold parseRulesFile.lineChecked parseRulesFile.line
  cases stringsTrimSpace line with
  | nil => rfl
  | cons c t =>
    by_cases hc : c = '#'
    · simp [goIndex, hc]
    · cases hs : stringsSplit ' ' (c :: t) with
      | nil => simp [goIndex, hc, hs]
      | cons w ws =>
        cases ws with
        | nil => simp [goIndex, hc, hs]
        | cons w2 ws2 =>
          simp [goIndex, goSliceFrom, hc, hs, parseRulesFile.usernamesChecked_eq]

theorem parseRulesFile.linesChecked_eq (lines : List GoString) :
    ∀ rules : List Rule, parseRulesFile.linesChecked rules lines =
      some (lines.foldl
        (fun rules line =>
          match parseRulesFile.line line with
          | none => rules
          | some rule => rules ++ [rule])
        rules) := by
  induction lines with
  | nil => intro rules; rfl
  | cons l ls ih =>
    intro rules
    rw [parseRulesFile.linesChecked, parseRulesFile.lineChecked_eq, List.foldl_cons]
    cases parseRulesFile.line l with
    | none => exact ih _
    | some rule => exact ih _

/-- C14: parsing never fails. On every input string the bounds-checked run of
`parseRulesFile` (checking `trimmed[0]`, `words[0]`, `words[1:]`, `username[0]` and
`username[1:]`) does not panic and returns the ruleset that `parseRulesFile` returns. -/
theorem parse_never_panics (data : GoString) :
    parseRulesFileChecked data = some (parseRulesFile data) := by
  unfold parseRulesFileChecked parseRulesFile
  rw [parseRulesFile.linesChecked_eq]

/-! ## Claims about `createCommit` -/

theorem createCommit.payload_eq (tree : Tree) (parent : RepositoryCommit)
    (author : CommitAuthor) (date : Int) (options : signedCommitOptions) :
    createCommit.payload tree parent author date options =
      "tree ".toList ++ tree.GetSHA ++ "\nparent ".toList ++ parent.GetSHA ++
        "\nauthor ".toList ++ author.GetName ++ " <".toList ++ author.GetEmail ++
        "> ".toList ++ fmtInt date ++ " +0000\ncommitter ".toList ++ author.GetName ++
        " <".toList ++ author.GetEmail ++ "> ".toList ++ fmtInt date ++
        " +0000\n\n".toList ++ options.commitMessage := by
  simp [createCommit.payload, fmtSprintf]

/-- C11: the signing payload. In every run of `createCommit`, the data passed to
`signData` is exactly `"tree T\nparent P\nauthor N <E> u +0000\ncommitter N <E> u
+0000\n\nM"`, where `T` is the SHA of the tree `CreateTree` returned, `P` the SHA of the
commit `GetCommit` returned, `N` and `E` the user name and e-mail of the options, `u` the
Unix time in decimal and `M` the commit message, with nothing after `M`; `signData` is
not called without a key. With `T`, `P`, Jane Doe, jane@example.com, 1700000000 and
"update owners" the payload is the string of the specification. -/
theorem signing_payload_exact {σ Err : Type} (w : World σ Err)
    (options : signedCommitOptions) (s0 : σ) :
    (∀ data ∈ (createCommit w options s0).calls.filterMap Call.signedData,
      ∃ tree ∈ (createCommit w options s0).calls.filterMap Call.createdTree,
        ∃ parent ∈ (createCommit w options s0).calls.filterMap Call.fetchedCommit,
          data = "tree ".toList ++ tree.GetSHA ++ "\nparent ".toList ++ parent.GetSHA ++
            "\nauthor ".toList ++ options.username ++ " <".toList ++ options.email ++
            "> ".toList ++ fmtInt w.Now ++ " +0000\ncommitter ".toList ++ options.username ++
            " <".toList ++ options.email ++ "> ".toList ++ fmtInt w.Now ++
            " +0000\n\n".toList ++ options.commitMessage) ∧
    (options.gpgPrivateKey = [] →
      (createCommit w options s0).calls.filterMap Call.signedData = []) ∧
    (createCommit (sampleWorld none) (sampleOptions "K".toList) ()).calls.filterMap
        Call.signedData =
      ["tree T\nparent P\nauthor Jane Doe <jane@example.com> 1700000000 +0000\ncommitter Jane Doe <jane@example.com> 1700000000 +0000\n\nupdate owners".toList] := by
  refine ⟨?_, ?_, by decide⟩
  · unfold createCommit createCommit.finish
    dsimp only
    repeat' split
    all_goals
      simp [Call.signedData, Call.createdTree, Call.fetchedCommit, createCommit.payload_eq,
        CommitAuthor.GetName, CommitAuthor.GetEmail]
  · unfold createCommit createCommit.finish
    dsimp only
    repeat' split
    all_goals simp_all [Call.signedData]

theorem createCommit.calls_initial_steps {σ Err : Type} (w : World σ Err)
    (options : signedCommitOptions) (s0 : σ) :
    (createCommit w options s0).calls.map Call.step <+: createCommit.steps options := by
  unfold createCommit createCommit.finish
  dsimp only
  repeat' split
  all_goals simp [Call.step, createCommit.steps, *]

theorem createCommit.calls_before_last_ok {σ Err : Type} (w : World σ Err)
    (options : signedCommitOptions) (s0 : σ) :
    ∀ c ∈ (createCommit w options s0).calls.dropLast, c.failure = none := by
  unfold createCommit createCommit.finish
  dsimp only
  repeat' split
  all_goals simp [Call.failure, errorOf, List.dropLast]

theorem createCommit.returned_err_iff {σ Err : Type} (w : World σ Err)
    (options : signedCommitOptions) (s0 : σ) :
    ∀ e, (createCommit w options s0).returned = Returned.err e ↔
      (createCommit w options s0).calls.getLast?.bind Call.failure = some e := by
  unfold createCommit createCommit.finish
  dsimp only
  repeat' split
  all_goals simp [Call.failure, errorOf, *]

theorem createCommit.returned_nil_iff {σ Err : Type} (w : World σ Err)
    (options : signedCommitOptions) (s0 : σ) :
    (createCommit w options s0).returned = Returned.nil ↔
      ((createCommit w options s0).calls.map Call.step = createCommit.steps options ∧
        ∀ c ∈ (createCommit w options s0).calls, c.failure = none) := by
  unfold createCommit createCommit.finish
  dsimp only
  repeat' split
  all_goals simp [Call.failure, Call.step, createCommit.steps, errorOf, *]

theorem createCommit.updateRef_after_commit {σ Err : Type} (w : World σ Err)
    (options : signedCommitOptions) (s0 : σ) :
    ∀ c ∈ (createCommit w options s0).calls, c.step = Step.UpdateRef →
      c.forced = some false ∧
        ∃ d ∈ (createCommit w options s0).calls,
          d.step = Step.CreateCommit ∧ d.failure = none := by
  unfold createCommit createCommit.finish
  dsimp only
  repeat' split
  all_goals simp [Call.failure, Call.step, Call.forced, errorOf]

theorem createCommit.nothing_after_failed_signData {σ Err : Type} (w : World σ Err)
    (options : signedCommitOptions) (s0 : σ) :
    (∃ c ∈ (createCommit w options s0).calls,
        c.step = Step.signData ∧ c.failure ≠ none) →
      ∀ d ∈ (createCommit w options s0).calls,
        d.step ≠ Step.CreateCommit ∧ d.step ≠ Step.UpdateRef := by
  unfold createCommit createCommit.finish
  dsimp only
  repeat' split
  all_goals simp [Call.failure, Call.step, errorOf]

theorem createCommit.first_call_GetRef {σ Err : Type} (w : World σ Err)
    (options : signedCommitOptions) (s0 : σ) :
    ((createCommit w options s0).calls.map Call.step).head? = some Step.GetRef := by
  unfold createCommit createCommit.finish
  dsimp only
  repeat' split
  all_goals simp [Call.step]

theorem createCommit.returned_panicked_iff {σ Err : Type} (w : World σ Err)
    (options : signedCommitOptions) (s0 : σ) :
    (createCommit w options s0).returned = Returned.panicked ↔
      ∃ c, (createCommit w options s0).calls.getLast? = some c ∧ c.derefsNil = true := by
  unfold createCommit createCommit.finish
  dsimp only
  repeat' split
  all_goals simp [Call.derefsNil, *]

theorem createCommit.progress {σ Err : Type} (w : World σ Err)
    (options : signedCommitOptions) (s0 : σ) :
    ∀ c, (createCommit w options s0).calls.getLast? = some c →
      c.failure = none → c.derefsNil = false →
        (createCommit w options s0).calls.map Call.step = createCommit.steps options ∧
          (createCommit w options s0).returned = Returned.nil := by
  unfold createCommit createCommit.finish
  dsimp only
  repeat' split
  all_goals simp [Call.failure, Call.step, Call.derefsNil, createCommit.steps, errorOf, *]

/-- C13: `createCommit` aborts on the first failing step. In every run, whatever the
outcomes of `GetRef`, `CreateTree`, `GetCommit`, `signData` (called only when a key is
supplied), `CreateCommit` and `UpdateRef`: `GetRef` is always called; the calls made are
an initial part of that sequence of steps; every call but the last succeeded;
`createCommit` returns the error `e` exactly when its last call failed with `e`; it
returns nil exactly when all steps were called and none failed; it panics exactly when
its last call is a `GetRef` that returned a reference without object SHA or a
`GetCommit` that returned a commit without nested commit; so after a call that
succeeded with a usable result the next step is called, until all steps are done;
`UpdateRef` is called with `force = false` and only after a successful `CreateCommit`;
and after a failed `signData` neither `CreateCommit` nor `UpdateRef` is called. -/
theorem createCommit_aborts_on_first_failure {σ Err : Type} (w : World σ Err)
    (options : signedCommitOptions) (s0 : σ) :
    ((createCommit w options s0).calls.map Call.step <+: createCommit.steps options) ∧
    (∀ c ∈ (createCommit w options s0).calls.dropLast, c.failure = none) ∧
    (∀ e, (createCommit w options s0).returned = Returned.err e ↔
      (createCommit w options s0).calls.getLast?.bind Call.failure = some e) ∧
    ((createCommit w options s0).returned = Returned.nil ↔
      ((createCommit w options s0).calls.map Call.step = createCommit.steps options ∧
        ∀ c ∈ (createCommit w options s0).calls, c.failure = none)) ∧
    (∀ c ∈ (createCommit w options s0).calls, c.step = Step.UpdateRef →
      c.forced = some false ∧
        ∃ d ∈ (createCommit w options s0).calls,
          d.step = Step.CreateCommit ∧ d.failure = none) ∧
    ((∃ c ∈ (createCommit w options s0).calls,
        c.step = Step.signData ∧ c.failure ≠ none) →
      ∀ d ∈ (createCommit w options s0).calls,
        d.step ≠ Step.CreateCommit ∧ d.step ≠ Step.UpdateRef) ∧
    (((createCommit w options s0).calls.map Call.step).head? = some Step.GetRef) ∧
    ((createCommit w options s0).returned = Returned.panicked ↔
      ∃ c, (createCommit w options s0).calls.getLast? = some c ∧ c.derefsNil = true) ∧
    (∀ c, (createCommit w options s0).calls.getLast? = some c →
      c.failure = none → c.derefsNil = false →
        (createCommit w options s0).calls.map Call.step = createCommit.steps options ∧
          (createCommit w options s0).returned = Returned.nil) :=
  ⟨createCommit.calls_initial_steps w options s0,
    createCommit.calls_before_last_ok w options s0,
    createCommit.returned_err_iff w options s0,
    createCommit.returned_nil_iff w options s0,
    createCommit.updateRef_after_commit w options s0,
    createCommit.nothing_after_failed_signData w options s0,
    createCommit.first_call_GetRef w options s0,
    createCommit.returned_panicked_iff w options s0,
    createCommit.progress w options s0⟩

/-- On the sample environment with a key: when `signData` fails, the run stops after it
and returns its error; when nothing fails, all six steps are called and nil is returned. -/
theorem createCommit_sample_runs :
    (createCommit (sampleWorld (some Step.signData)) (sampleOptions "K".toList) ()).calls.map
        Call.step = [Step.GetRef, Step.CreateTree, Step.GetCommit, Step.signData] ∧
      (createCommit (sampleWorld (some Step.signData)) (sampleOptions "K".toList)
        ()).returned = Returned.err 7 ∧
      (createCommit (sampleWorld none) (sampleOptions "K".toList) ()).calls.map Call.step =
        [Step.GetRef, Step.CreateTree, Step.GetCommit, Step.signData, Step.CreateCommit,
          Step.UpdateRef] ∧
      (createCommit (sampleWorld none) (sampleOptions "K".toList) ()).returned =
        Returned.nil := by
  refine ⟨?_, ?_, ?_, ?_⟩ <;> decide

end Codeowners
